import Mathlib

/-!
Verification development for the `ultrastar-fs` read-accelerating overlay
filesystem (cache builder in `src/cache.rs`, handle table and descriptor
state machine in `src/file_handles.rs`, overlay operations in
`src/passthrough.rs`, attribute codec in `src/stat.rs` and `src/types.rs`).

The Rust code is shallowly embedded: OS-native file names and paths are byte
lists (`Name`), machine integers become `Nat`/`Int` with explicit wraparound
where it matters, fallible code returns `Except`, and calls that can panic
return a dedicated `POut` outcome type.  External collaborators (libc
wrappers, the zip library, serde_json's text layer) are modelled at their
documented interfaces, as the spec designates them as excluded interfaces.
-/

namespace UFS

/-- An OS-native file name or path, as raw bytes (Unix `OsStr`). -/
abbrev Name := List Nat

/-- Byte-wise comparison of names, the ordering `OsStr::cmp` uses
(lexicographic comparison of the underlying byte slices). -/
def cmpName : Name → Name → Ordering
  | [], [] => .eq
  | [], _ :: _ => .lt
  | _ :: _, [] => .gt
  | a :: as, b :: bs =>
    match compare a b with
    | .eq => cmpName as bs
    | .lt => .lt
    | .gt => .gt

/-- Strict byte-wise order on names. -/
def nameLt (a b : Name) : Bool :=
  match cmpName a b with
  | .lt => true
  | _ => false

/-- Non-strict byte-wise order on names; this is the `le` under which
`WalkDir`'s `sort_by(|a, b| a.file_name().cmp(b.file_name()))` sorts. -/
def nameLe (a b : Name) : Bool :=
  match cmpName a b with
  | .gt => false
  | _ => true

/-! ## Stat records (`src/types.rs`)

`SerializableTimespec`, `SerializableFileType` and `SerializableFileAttr` are
direct translations; unsigned machine integers become `Nat`, `sec : i64` and
`nsec : i32` become `Int` (the claims never exercise integer wraparound on
these fields, and the builder stores values coming straight from `stat64`). -/

structure STimespec where
  sec : Int
  nsec : Int
deriving DecidableEq, Repr

inductive SFileType where
  | namedPipe
  | charDevice
  | blockDevice
  | directory
  | regularFile
  | symlink
  | socket
deriving DecidableEq, Repr

structure SFileAttr where
  size : Nat
  blocks : Nat
  atime : STimespec
  mtime : STimespec
  ctime : STimespec
  crtime : STimespec
  kind : SFileType
  perm : Nat
  nlink : Nat
  uid : Nat
  gid : Nat
  rdev : Nat
  flags : Nat
deriving DecidableEq, Repr

/-- A zero-filled attribute record, used for concrete test inputs. -/
def stat0 : SFileAttr :=
  { size := 0, blocks := 0
    atime := ⟨0, 0⟩, mtime := ⟨0, 0⟩, ctime := ⟨0, 0⟩, crtime := ⟨0, 0⟩
    kind := .regularFile, perm := 0o644, nlink := 1, uid := 0, gid := 0
    rdev := 0, flags := 0 }

def statDir0 : SFileAttr := { stat0 with kind := .directory, perm := 0o755 }

/-! ## The cache tree (`src/cache.rs`, `enum Entry`)

`Entry::Dict { name, contents, stat }` and
`Entry::File { name, stat, contents: Option<ArcBuf> }`; the `File` contents
field carries `#[serde(skip)]`. -/

inductive Entry where
  | dict (name : Name) (contents : List Entry) (stat : SFileAttr)
  | file (name : Name) (stat : SFileAttr) (contents : Option (List Nat))

def Entry.name : Entry → Name
  | .dict n _ _ => n
  | .file n _ _ => n

def Entry.stat : Entry → SFileAttr
  | .dict _ _ st => st
  | .file _ st _ => st

/-- Placeholder entry used as the (never reached) out-of-bounds default of
list indexing in the binary-search embedding. -/
def dummyEntry : Entry := .file [] stat0 none

/-! ## Binary search (`contents.binary_search_by` in `Entry::find` / `find_mut`)

The cache tree navigates by `slice::binary_search_by` with the comparator
`|other| other.name.cmp(component)`.  `binary_search_by` is Rust standard
library code (an excluded collaborator); we embed its documented algorithm:
halve `[lo, hi)` on the comparator, `Ok(mid)` on an equal element,
`Err(insertion point)` when the window empties. -/

def bsearchGo (cs : List Entry) (a : Name) : Nat → Nat → Nat → Except Nat Nat
  | 0, lo, _ => .error lo
  | fuel + 1, lo, hi =>
    if lo < hi then
      match cmpName ((cs.getD ((lo + hi) / 2) dummyEntry).name) a with
      | .lt => bsearchGo cs a fuel ((lo + hi) / 2 + 1) hi
      | .gt => bsearchGo cs a fuel lo ((lo + hi) / 2)
      | .eq => .ok ((lo + hi) / 2)
    else .error lo

/-- The loop shrinks the window `[lo, hi)` by at least one each iteration,
so `length + 1` rounds always suffice; the explicit bound only makes the
recursion structural and never binds. -/
def bsearch (cs : List Entry) (a : Name) : Except Nat Nat :=
  bsearchGo cs a (cs.length + 1) 0 cs.length

/-- Strict ascending byte-wise sortedness of a sibling list's names
(§3 invariant: binary search is only correct if this holds). -/
def NamesSorted (cs : List Entry) : Prop :=
  List.Pairwise (fun e f => nameLt e.name f.name = true) cs

/-! ## Cache tree navigation (`Entry::find` / `Entry::find_mut`, src/cache.rs)

Virtual paths are represented as their list of components (the code's
`path_to_rel` + `ancestors`/`file_name` walk visits exactly the components of
the relative path in order; paths handed to the tree never contain `..`,
which the kernel resolves before FUSE sees the path). -/

/-- `Entry::find`: empty relative path resolves to the node itself, otherwise
descend component by component, binary-searching each directory's `contents`.
Descending into a `File` fails with the code's error message; a failed search
fails with the code's "File not found". -/
def Entry.findE : Entry → List Name → Except String Entry
  | e, [] => .ok e
  | .file _ _ _, _ :: _ => .error "Can't search in a file"
  | .dict _ cs _, comp :: rest =>
    match bsearch cs comp with
    | .error _ => .error "File not found"
    | .ok i => Entry.findE (cs.getD i dummyEntry) rest

/-- `Entry::find_mut` followed by `Entry::add_entry` as used by the builder:
navigate to the directory at `p` and append `newE` to its `contents`.
`add_entry` on a `File` fails with "Can't add entry to a file". -/
def findMutAdd : Entry → List Name → Entry → Except String Entry
  | .file _ _ _, [], _ => .error "Can't add entry to a file"
  | .dict n cs st, [], newE => .ok (.dict n (cs ++ [newE]) st)
  | .file _ _ _, _ :: _, _ => .error "Can't search in a file"
  | .dict n cs st, comp :: rest, newE =>
    match bsearch cs comp with
    | .error _ => .error "File not found"
    | .ok i =>
      match findMutAdd (cs.getD i dummyEntry) rest newE with
      | .error msg => .error msg
      | .ok c => .ok (.dict n (cs.set i c) st)

/-- Adjacent strict ascending order of sibling names (computable form of the
§3 `children`-sorted invariant). -/
def chainNames : List Entry → Bool
  | [] => true
  | [_] => true
  | e :: f :: rest => nameLt e.name f.name && chainNames (f :: rest)

mutual

/-- Every directory node of the tree has its `contents` strictly sorted by
name, at every level. -/
def Entry.sortedB : Entry → Bool
  | .file _ _ _ => true
  | .dict _ cs _ => chainNames cs && sortedAll cs

def sortedAll : List Entry → Bool
  | [] => true
  | e :: rest => e.sortedB && sortedAll rest

end

mutual

/-- Every `File` node's in-memory `contents` option is `None` (the state the
builder leaves trees in: `Entry::new` always stores `contents: None`). -/
def Entry.noContents : Entry → Bool
  | .file _ _ c => c.isNone
  | .dict _ cs _ => noContentsAll cs

def noContentsAll : List Entry → Bool
  | [] => true
  | e :: rest => e.noContents && noContentsAll rest

end

/-! ## The source tree and the builder walk (`build` in src/cache.rs)

The builder's input is the source directory tree.  A node carries the stat
the builder's `lstat` would observe and, for regular files, the byte contents
subsequent `File::open`/`read` calls would return (the model assumes the
per-entry IO of a build succeeds; failing entries are warned and skipped by
the code and are simply absent from the modelled tree).  `WalkDir::new(".")
.sort_by(|a, b| a.file_name().cmp(b.file_name())).min_depth(1)` enumerates a
directory's entries sorted by name, each parent before its contents
(depth-first, pre-order). -/

inductive SrcNode where
  | dir (stat : SFileAttr) (children : List (Name × SrcNode))
  | file (stat : SFileAttr) (contents : List Nat)

/-- No directory of a real filesystem lists the same name twice; the builder
relies on this (`find_mut` by binary search).  Well-formedness of a source
tree: sibling names are pairwise distinct, at every level. -/
def namesNodup : List Name → Bool
  | [] => true
  | n :: rest => rest.all (fun m => !(n == m)) && namesNodup rest

mutual

def SrcNode.wfB : SrcNode → Bool
  | .file _ _ => true
  | .dir _ cs => namesNodup (cs.map Prod.fst) && wfAllB cs

def wfAllB : List (Name × SrcNode) → Bool
  | [] => true
  | p :: rest => SrcNode.wfB p.2 && wfAllB rest

end

/-- Stable insertion of an entry after every entry that compares
less-or-equal. -/
def insertPair (p : Name × SrcNode) : List (Name × SrcNode) → List (Name × SrcNode)
  | [] => [p]
  | q :: rest => if nameLe q.1 p.1 then q :: insertPair p rest else p :: q :: rest

/-- The sibling ordering of the walk:
`sort_by(|a, b| a.file_name().cmp(b.file_name()))`, a stable sort by the
byte-wise name comparator, embedded as the canonical stable sort (insertion
sort; any two stable sorts under the same total preorder agree). -/
def sortPairs : List (Name × SrcNode) → List (Name × SrcNode)
  | [] => []
  | p :: rest => insertPair p (sortPairs rest)

mutual

/-- Weight of a source node, invariant under permutation of sibling lists;
an upper bound on walk depth used as structural recursion fuel below. -/
def SrcNode.w : SrcNode → Nat
  | .file _ _ => 1
  | .dir _ cs => 1 + pairsW cs

def pairsW : List (Name × SrcNode) → Nat
  | [] => 0
  | p :: rest => 1 + SrcNode.w p.2 + pairsW rest

end

/-- One walk entry: the parent's relative component path, the entry's file
name, and the source node (the code reads these off `e.path()` via
`p.parent()` / `p.file_name()` / `lstat`). -/
abbrev WalkItem := List Name × Name × SrcNode

/-- Walk items contributed by one directory entry: the entry itself first,
then (for directories) the recursively walked, name-sorted contents --
exactly `WalkDir`'s sorted depth-first pre-order.  The first argument is
structural recursion fuel; `SrcNode.w` strictly dominates the recursion
depth, so the zero case is never reached from `walkNodeItems`. -/
def walkNodeItemsF : Nat → Name × SrcNode → List Name → List WalkItem
  | 0, _, _ => []
  | _ + 1, (n, .file st c), base => [(base, n, .file st c)]
  | fuel + 1, (n, .dir st cs), base =>
    (base, n, .dir st cs) ::
      (sortPairs cs).flatMap (fun q => walkNodeItemsF fuel q (base ++ [n]))

def walkNodeItems (q : Name × SrcNode) (base : List Name) : List WalkItem :=
  walkNodeItemsF (SrcNode.w q.2) q base

/-- The full walk of the source root's children (paths relative to the root:
`WalkDir::new(".").min_depth(1)`). -/
def walkTop (cs : List (Name × SrcNode)) : List WalkItem :=
  (sortPairs cs).flatMap (fun q => walkNodeItems q [])

/-! ## Extensions (`Path::extension` / `Path::with_extension`)

`Path::extension` of a file name: the portion after the last `.` of the
name, unless the only `.` is the leading byte; `with_extension` replaces it.
These are Rust std functions (excluded collaborators) embedded per their
documentation. -/

/-- Split the tail of a file name at its last dot: `some (stem-tail, ext)`.
The recursion prefers a split found deeper in the list, so the returned dot
is the last one. -/
def splitExtAux : List Nat → Option (List Nat × List Nat)
  | [] => none
  | c :: rest =>
    match splitExtAux rest with
    | some (s, e) => some (c :: s, e)
    | none => if c == 46 then some ([], rest) else none

/-- Split a file name into stem and extension; the leading byte never acts
as an extension separator (`.bashrc` has no extension). -/
def extSplit : Name → Option (Name × Name)
  | [] => none
  | c :: rest =>
    match splitExtAux rest with
    | some (s, e) => some (c :: s, e)
    | none => none

def extOf (n : Name) : Option Name := (extSplit n).map Prod.snd

/-- `Path::with_extension` on a file name: strip the extension (and its dot)
if present, then append a dot and the new extension. -/
def withExt (n : Name) (newExt : Name) : Name :=
  match extSplit n with
  | some (s, _) => s ++ [46] ++ newExt
  | none => n ++ [46] ++ newExt

/-- `p.extension().map_or(false, |x| x == "txt")`. -/
def hasTxtExt (n : Name) : Bool := extOf n == some [116, 120, 116]

/-- The builder's audio-extension test:
`x == "mp3" || x == "m4a" || x == "ogg" || x == "wav" || x == "wma" || x == "flac"`. -/
def isAudioName (n : Name) : Bool :=
  match extOf n with
  | none => false
  | some e =>
    e == [109, 112, 51] || e == [109, 52, 97] || e == [111, 103, 103] ||
      e == [119, 97, 118] || e == [119, 109, 97] || e == [102, 108, 97, 99]

/-- `add_audio_to_cache`'s member path for file name `n`:
`p.with_extension(&format!("{}.part", extension))`.  (The `.expect`s cannot
fire under the `isAudioName` guard: the extension exists and equals an ASCII
literal.) -/
def audioPartName (n : Name) : Name :=
  match extSplit n with
  | some (_, e) => withExt n (e ++ [46, 112, 97, 114, 116])
  | none => n

/-- `Entry::new(path)`: name is the path's file name; directories get an
empty `contents`; files whose extension is `txt` get their write bits
cleared (`stat.perm & 0o5555`); the in-memory contents field starts `None`. -/
def entryOfNode (n : Name) : SrcNode → Entry
  | .dir st _ => .dict n [] st
  | .file st _ =>
    .file n (if hasTxtExt n then { st with perm := st.perm &&& 0o5555 } else st) none

/-- The tree `build` produces, written directly by recursion (fueled as for
the walk): every directory's children are the name-sorted mirror of the
source children.  (Proved below to be exactly what the
`find_mut`/`add_entry` fold computes.) -/
def mirrorPairF : Nat → Name × SrcNode → Entry
  | 0, (_, _) => dummyEntry
  | _ + 1, (n, .file st c) => entryOfNode n (.file st c)
  | fuel + 1, (n, .dir st cs) => .dict n ((sortPairs cs).map (mirrorPairF fuel)) st

def mirrorPair (q : Name × SrcNode) : Entry := mirrorPairF (SrcNode.w q.2) q

/-- `add_audio_to_cache`'s copy loop: read up to 128 bytes at a time, stop
at end of file or once 16 384 bytes are written, clipping the final chunk.
Returns the bytes written to the archive member.  The fuel argument makes
the recursion structural; every round consumes 128 bytes of the file, so
`length + 1` rounds always suffice. -/
def audioLoopF : Nat → List Nat → Nat → List Nat
  | 0, _, _ => []
  | fuel + 1, file, counter =>
    if counter < 16384 then
      if (file.take 128).length = 0 then []
      else
        (file.take 128).take
            (if counter + (file.take 128).length > 16384 then 16384 - counter
              else (file.take 128).length) ++
          audioLoopF fuel (file.drop 128)
            (counter +
              (if counter + (file.take 128).length > 16384 then 16384 - counter
                else (file.take 128).length))
    else []

def audioLoop (file : List Nat) (counter : Nat) : List Nat :=
  audioLoopF (file.length + 1) file counter

/-- The zip crate's `start_file_from_path` name conversion: join the normal
components with `/` (the leading `.` component of the walk paths is
dropped). -/
def zipPathOf (comps : List Name) : Name :=
  match comps with
  | [] => []
  | c :: rest => c ++ rest.foldl (fun acc r => acc ++ 47 :: r) []

/-! ## The builder fold (`build`, src/cache.rs lines 291-350)

For each walk entry: locate the parent (`find_mut` on `p.parent()`, the
root for depth-1 entries) and `add_entry` the new node; then, for files,
append the txt member (full contents under the relative path) and/or the
audio member (loop-prefix under the `.part` path) to the archive.  Archive
members are modelled as an ordered association list of name and contents. -/

def buildStep (cacheAudio : Bool) (acc : Entry × List (Name × List Nat)) (item : WalkItem) :
    Except String (Entry × List (Name × List Nat)) :=
  match findMutAdd acc.1 item.1 (entryOfNode item.2.1 item.2.2) with
  | .error e => .error e
  | .ok t =>
    match item.2.2 with
    | .dir _ _ => .ok (t, acc.2)
    | .file _ c =>
      .ok (t,
        (if hasTxtExt item.2.1 then
            acc.2 ++ [(zipPathOf (item.1 ++ [item.2.1]), c)]
          else acc.2) ++
          (if cacheAudio && isAudioName item.2.1 then
              [(zipPathOf (item.1 ++ [audioPartName item.2.1]), audioLoop c 0)]
            else []))

/-- `build`: `assert!(src_path.is_dir())`; root entry named `"."` with the
source directory's stat and empty contents; fold the sorted walk through
`find_mut`/`add_entry` and the member appends.  (`files.json`, serialized
from the final tree, and the optional `cover.db` are written after the fold;
the serialization is modelled separately by `serializeEntry`.) -/
def buildFull (src : SrcNode) (cacheAudio : Bool) :
    Except String (Entry × List (Name × List Nat)) :=
  match src with
  | .file _ _ => .error "assertion failed: src_path.is_dir()"
  | .dir st cs =>
    (walkTop cs).foldlM (buildStep cacheAudio) (Entry.dict [46] [] st, [])

/-- The cache tree produced by a successful build. -/
def buildTree (src : SrcNode) (cacheAudio : Bool) : Except String Entry :=
  (buildFull src cacheAudio).map Prod.fst

/-! ## Serialization of the cache tree (`files.json`)

`serde_json::to_writer_pretty(&root)` / `serde_json::from_reader`, modelled
at the JSON value level (the text rendering and parsing between values and
bytes is serde_json library code, an excluded collaborator).  The derived
`Serialize`/`Deserialize` for `Entry` uses the externally tagged enum
encoding; `OsString` serializes on Unix as the `Unix` newtype variant
carrying the byte array; the `File` variant's in-memory `contents` field is
`#[serde(skip)]`-ped on output and restored as `None` (`default =
"new_none"`).  The deserializer is modelled on the canonical shapes the
serializer emits. -/

inductive Json where
  | num (n : Int)
  | str (s : String)
  | arr (xs : List Json)
  | obj (fields : List (String × Json))

def serName (n : Name) : Json :=
  .obj [("Unix", .arr (n.map (fun b => .num (Int.ofNat b))))]

def serTs (t : STimespec) : Json := .obj [("sec", .num t.sec), ("nsec", .num t.nsec)]

def serKind : SFileType → Json
  | .namedPipe => .str "NamedPipe"
  | .charDevice => .str "CharDevice"
  | .blockDevice => .str "BlockDevice"
  | .directory => .str "Directory"
  | .regularFile => .str "RegularFile"
  | .symlink => .str "Symlink"
  | .socket => .str "Socket"

def serAttr (a : SFileAttr) : Json :=
  .obj [("size", .num (Int.ofNat a.size)), ("blocks", .num (Int.ofNat a.blocks)),
    ("atime", serTs a.atime), ("mtime", serTs a.mtime), ("ctime", serTs a.ctime),
    ("crtime", serTs a.crtime), ("kind", serKind a.kind),
    ("perm", .num (Int.ofNat a.perm)), ("nlink", .num (Int.ofNat a.nlink)),
    ("uid", .num (Int.ofNat a.uid)), ("gid", .num (Int.ofNat a.gid)),
    ("rdev", .num (Int.ofNat a.rdev)), ("flags", .num (Int.ofNat a.flags))]

mutual

def serializeEntry : Entry → Json
  | .dict n cs st =>
    .obj [("Dict", .obj [("name", serName n), ("contents", .arr (serializeListE cs)),
      ("stat", serAttr st)])]
  | .file n st _ =>
    .obj [("File", .obj [("name", serName n), ("stat", serAttr st)])]

def serializeListE : List Entry → List Json
  | [] => []
  | e :: rest => serializeEntry e :: serializeListE rest

end

def natOf : Json → Option Nat
  | .num i => if i < 0 then none else some i.toNat
  | _ => none

def byteOf (j : Json) : Option Nat := natOf j

def deName : Json → Option Name
  | .obj [("Unix", .arr xs)] => xs.mapM byteOf
  | _ => none

def deTs : Json → Option STimespec
  | .obj [("sec", .num s), ("nsec", .num ns)] => some ⟨s, ns⟩
  | _ => none

def deKind : Json → Option SFileType
  | .str "NamedPipe" => some .namedPipe
  | .str "CharDevice" => some .charDevice
  | .str "BlockDevice" => some .blockDevice
  | .str "Directory" => some .directory
  | .str "RegularFile" => some .regularFile
  | .str "Symlink" => some .symlink
  | .str "Socket" => some .socket
  | _ => none

/-- Field access of the derived struct deserializer (serde structs are
deserialized by field name). -/
def jField : List (String × Json) → String → Option Json
  | [], _ => none
  | f :: rest, key => if f.1 = key then some f.2 else jField rest key

def deAttr : Json → Option SFileAttr
  | .obj fields => do
    let size ← (jField fields "size").bind natOf
    let blocks ← (jField fields "blocks").bind natOf
    let atime ← (jField fields "atime").bind deTs
    let mtime ← (jField fields "mtime").bind deTs
    let ctime ← (jField fields "ctime").bind deTs
    let crtime ← (jField fields "crtime").bind deTs
    let kind ← (jField fields "kind").bind deKind
    let perm ← (jField fields "perm").bind natOf
    let nlink ← (jField fields "nlink").bind natOf
    let uid ← (jField fields "uid").bind natOf
    let gid ← (jField fields "gid").bind natOf
    let rdev ← (jField fields "rdev").bind natOf
    let flags ← (jField fields "flags").bind natOf
    pure ⟨size, blocks, atime, mtime, ctime, crtime, kind, perm, nlink, uid, gid, rdev, flags⟩
  | _ => none

mutual

def deserializeEntry : Json → Option Entry
  | .obj [("Dict", .obj [("name", jn), ("contents", .arr jcs), ("stat", jst)])] =>
    match deName jn, deserializeListE jcs, deAttr jst with
    | some n, some cs, some st => some (.dict n cs st)
    | _, _, _ => none
  | .obj [("File", .obj [("name", jn), ("stat", jst)])] =>
    match deName jn, deAttr jst with
    | some n, some st => some (.file n st none)
    | _, _ => none
  | _ => none

def deserializeListE : List Json → Option (List Entry)
  | [] => some []
  | j :: rest =>
    match deserializeEntry j, deserializeListE rest with
    | some e, some es => some (e :: es)
    | _, _ => none

end

/-! ## Errno constants (Linux values used by the overlay) -/

def ENOENT : Int := 2
def EBADF : Int := 9
def EACCES : Int := 13
def EISDIR : Int := 21
def EINVAL : Int := 22
def ENOSYS : Int := 38

/-! ## Descriptors and `resolve` (src/file_handles.rs)

`Lazy(rx)` holds the receiving end of the one-shot channel on which the
spawned worker deposits exactly one `Result<u64, i32>` (the spec documents
the worker always sends; the `.expect("Lazy open thread locked up")` on
`recv` can therefore not fire and is not a reachable outcome).  The channel
is modelled by the value in flight; `resolve` reports whether it received on
the channel (`recvd`), the possibly transitioned state, and the errno
returned on the `Err` paths.  Cursors are a byte buffer plus position. -/

inductive Descriptor where
  | path (p : Name)
  | handle (fd : Nat)
  | lazy (pending : Except Int Nat)
  | error (errno : Int)
  | file (path : Name) (buf : List Nat) (pos : Nat)
  | composite (tail : Descriptor) (path : Name) (buf : List Nat) (pos : Nat)

structure ResolveOut where
  state : Descriptor
  err : Option Int
  recvd : Bool

/-- `Descriptor::resolve(offset)`: `Lazy` receives and becomes `Handle` or
`Error`; `Composite` receives on its inner `Lazy` only once
`offset.unwrap_or(0) >= 16_384`, replacing the whole descriptor by
`Error(errno)` when the lazy open failed; `Error` always fails; the other
variants pass through untouched. -/
def Descriptor.resolve (d : Descriptor) (offset : Option Nat) : ResolveOut :=
  match d with
  | .lazy pending =>
    match pending with
    | .ok h => ⟨.handle h, none, true⟩
    | .error x => ⟨.error x, some x, true⟩
  | .composite tail p buf pos =>
    if offset.getD 0 ≥ 16384 then
      match tail with
      | .lazy pending =>
        match pending with
        | .ok newH => ⟨.composite (.handle newH) p buf pos, none, true⟩
        | .error x => ⟨.error x, some x, true⟩
      | _ => ⟨.composite tail p buf pos, none, false⟩
    else ⟨.composite tail p buf pos, none, false⟩
  | .error x => ⟨.error x, some x, false⟩
  | .path p => ⟨.path p, none, false⟩
  | .handle fd => ⟨.handle fd, none, false⟩
  | .file p buf pos => ⟨.file p buf pos, none, false⟩

/-- A sequence of `resolve` calls on the same descriptor: final state, and
whether any call received on the one-shot channel. -/
def resolveSeq (d : Descriptor) : List (Option Nat) → Descriptor × Bool
  | [] => (d, false)
  | o :: rest =>
    let r := d.resolve o
    let rec2 := resolveSeq r.state rest
    (rec2.1, r.recvd || rec2.2)

/-! ## The handle table (`FileHandles`, src/file_handles.rs)

`FH_COUNTER: AtomicU64 = AtomicU64::new(0)` is process-global; `fetch_add`
returns the previous value and wraps at 2^64.  The counter is modelled as an
unbounded `Nat` whose issued key is reduced mod 2^64.  `find_first_available`
loops while the key is taken; the loop is given explicit fuel (it spins
forever only if every key is taken, which a finite map cannot realize with
fuel above its size). -/

structure FileHandles where
  counter : Nat
  openMap : List (Nat × Descriptor)

def FileHandles.new : FileHandles := ⟨0, []⟩

def containsKey (m : List (Nat × Descriptor)) (k : Nat) : Bool :=
  m.any (fun p => p.1 == k)

def lookupD : List (Nat × Descriptor) → Nat → Option Descriptor
  | [], _ => none
  | p :: rest, k => if p.1 == k then some p.2 else lookupD rest k

def findFirstAvailable (fh : FileHandles) : Nat → Option (Nat × FileHandles)
  | 0 => none
  | fuel + 1 =>
    let key := fh.counter % 2 ^ 64
    let fh2 : FileHandles := ⟨fh.counter + 1, fh.openMap⟩
    if containsKey fh.openMap key then findFirstAvailable fh2 fuel
    else some (key, fh2)

/-- `register_handle`: allocate the first available key and insert; the
insertion never overwrites (the key was just checked absent). -/
def registerHandle (fh : FileHandles) (d : Descriptor) (fuel : Nat) :
    Option (Nat × FileHandles) :=
  match findFirstAvailable fh fuel with
  | none => none
  | some (key, fh2) => some (key, ⟨fh2.counter, fh2.openMap ++ [(key, d)]⟩)

/-- `free_handle`: remove and return the descriptor, "Handle not found" when
absent. -/
def freeHandle (fh : FileHandles) (h : Nat) : Except String (Descriptor × FileHandles) :=
  match lookupD fh.openMap h with
  | none => .error "Handle not found"
  | some d => .ok (d, ⟨fh.counter, fh.openMap.filter (fun p => !(p.1 == h))⟩)

/-- `find(handle, offset)`: look up, `resolve`, store the transitioned state
back, propagate resolve failures with the "Handle failed to open" context. -/
def fhFind (fh : FileHandles) (h : Nat) (offset : Option Nat) :
    Except String (Descriptor × FileHandles) :=
  match lookupD fh.openMap h with
  | none => .error "Handle not found"
  | some d =>
    let r := d.resolve offset
    let fh2 : FileHandles := ⟨fh.counter,
      fh.openMap.map (fun p => if p.1 == h then (h, r.state) else p)⟩
    match r.err with
    | some _ => .error "Handle failed to open"
    | none => .ok (r.state, fh2)

/-! ## UTF-8 validity (`OsStr::to_str`)

`to_str` succeeds exactly on valid UTF-8 byte sequences; the standard
validation automaton, including the surrogate and overlong exclusions. -/

def isCont (b : Nat) : Bool := 128 ≤ b && b ≤ 191

def isUtf8 : List Nat → Bool
  | [] => true
  | b :: rest =>
    if b ≤ 127 then isUtf8 rest
    else if 194 ≤ b && b ≤ 223 then
      match rest with
      | c1 :: rest2 => isCont c1 && isUtf8 rest2
      | [] => false
    else if b == 224 then
      match rest with
      | c1 :: c2 :: rest2 => (160 ≤ c1 && c1 ≤ 191) && isCont c2 && isUtf8 rest2
      | _ => false
    else if (225 ≤ b && b ≤ 236) || (238 ≤ b && b ≤ 239) then
      match rest with
      | c1 :: c2 :: rest2 => isCont c1 && isCont c2 && isUtf8 rest2
      | _ => false
    else if b == 237 then
      match rest with
      | c1 :: c2 :: rest2 => (128 ≤ c1 && c1 ≤ 159) && isCont c2 && isUtf8 rest2
      | _ => false
    else if b == 240 then
      match rest with
      | c1 :: c2 :: c3 :: rest2 =>
        (144 ≤ c1 && c1 ≤ 191) && isCont c2 && isCont c3 && isUtf8 rest2
      | _ => false
    else if 241 ≤ b && b ≤ 243 then
      match rest with
      | c1 :: c2 :: c3 :: rest2 => isCont c1 && isCont c2 && isCont c3 && isUtf8 rest2
      | _ => false
    else if b == 244 then
      match rest with
      | c1 :: c2 :: c3 :: rest2 =>
        (128 ≤ c1 && c1 ≤ 143) && isCont c2 && isCont c3 && isUtf8 rest2
      | _ => false
    else false

/-! ## Overlay operations (`PassthroughFS`, src/passthrough.rs)

Outcomes that can panic are wrapped in `POut`; the backing store's syscalls
(libc wrappers, excluded collaborators) are passed in as functions from
inputs to `Except errno` results.  Virtual paths arrive from the kernel as
absolute byte strings; path translation:

* `path_to_rel` (passthrough.rs line 75): `"." + path.to_str().unwrap()` --
  panics on non-UTF-8 paths;
* component splitting and rejoining of `PathBuf`/`strip_prefix(".")` is
  modelled by `vcomps` (empty and `.` components vanish, per `Path`
  component semantics);
* `real_path` (line 45): `target.join(path.strip_prefix("/"))`, which is
  byte concatenation when the virtual path is absolute. -/

inductive POut (α : Type) where
  | crash (msg : String)
  | ret (a : α)

def splitSlashAux : List Nat → Name → List Name
  | [], cur => [cur.reverse]
  | 47 :: rest, cur => cur.reverse :: splitSlashAux rest []
  | c :: rest, cur => splitSlashAux rest (c :: cur)

/-- The components of a path, per `Path::components`: split on `/`, empty
and current-directory components vanish (`..` components, which FUSE never
delivers, are kept verbatim). -/
def vcomps (p : Name) : List Name :=
  (splitSlashAux p []).filter (fun c => !(c == ([] : Name)) && !(c == ([46] : Name)))

/-- The string handed to `files_cache.by_name` for a virtual path:
`path_to_rel(path).strip_prefix(".").unwrap().to_str().unwrap()`. -/
def zipKeyOf (p : Name) : Name := zipPathOf (vcomps p)

abbrev Zip := List (Name × List Nat)

def zipByName : Zip → Name → Option (List Nat)
  | [], _ => none
  | m :: rest, k => if m.1 == k then some m.2 else zipByName rest k

def realPath (target p : Name) : Name := target ++ p

/-- The overlay's state: mirror of the `PassthroughFS` fields (`target`,
`struct_cache`, `files_cache`, `file_handles`). -/
structure FsState where
  target : Name
  structCache : Entry
  filesCache : Zip
  fileHandles : FileHandles

/-- `open(path, flags)` (lines 442-476): look the relative name up in the
archive; on a hit register `Descriptor::new(path)` (a `Path` descriptor!)
and return the handle with the unchanged flags; on a miss `open` the real
path through the libc wrapper, registering `Handle(fd)` on success and
returning the raw errno on failure. -/
def openImpl (st : FsState) (realOpen : Name → Nat → Except Int Nat)
    (p : Name) (flags : Nat) (fuel : Nat) : POut (Except Int (Nat × Nat) × FsState) :=
  if isUtf8 p then
    match zipByName st.filesCache (zipKeyOf p) with
    | some _ =>
      match registerHandle st.fileHandles (.path p) fuel with
      | none => .crash "find_first_available spun out"
      | some (h, fh2) => .ret (.ok (h, flags), { st with fileHandles := fh2 })
    | none =>
      match realOpen (realPath st.target p) flags with
      | .ok fd =>
        match registerHandle st.fileHandles (.handle fd) fuel with
        | none => .crash "find_first_available spun out"
        | some (h, fh2) => .ret (.ok (h, flags), { st with fileHandles := fh2 })
      | .error e => .ret (.error e, st)
  else .crash "called Option::unwrap on a None value"

/-- `stat_real` (lines 51-66): despite its name, consults only the cache
tree, with the io error "entry not found in cache" on a miss. -/
def statRealP (cache : Entry) (p : Name) : POut (Except String SFileAttr) :=
  if isUtf8 p then
    match cache.findE (vcomps p) with
    | .ok e => .ret (.ok e.stat)
    | .error _ => .ret (.error "entry not found in cache")
  else .crash "called Option::unwrap on a None value"

/-- `getattr` without a handle (lines 111-116): `stat_real`, any error
becomes `ENOENT`. -/
def getattrNoHandle (cache : Entry) (p : Name) : POut (Except Int SFileAttr) :=
  match statRealP cache p with
  | .crash m => .crash m
  | .ret (.ok a) => .ret (.ok a)
  | .ret (.error _) => .ret (.error ENOENT)

/-- `opendir(path)` (lines 620-635): require the path to resolve in the
cache tree; register `Descriptor::new(path)`, returning `(handle, 0)`;
`ENOENT` otherwise. -/
def opendirImpl (st : FsState) (p : Name) (fuel : Nat) :
    POut (Except Int (Nat × Nat) × FsState) :=
  if isUtf8 p then
    match st.structCache.findE (vcomps p) with
    | .ok _ =>
      match registerHandle st.fileHandles (.path p) fuel with
      | none => .crash "find_first_available spun out"
      | some (h, fh2) => .ret (.ok (h, 0), { st with fileHandles := fh2 })
    | .error _ => .ret (.error ENOENT, st)
  else .crash "called Option::unwrap on a None value"

/-- `read(path, fh, offset, size)` (lines 478-530): `find(fh)` (this vintage
passes no offset to `resolve`); a failed find answers `EBADF`.  A `Path`
descriptor re-reads the whole zip member named by its stored path into
memory -- `by_name(...).unwrap()` panics when the archive holds no such
member (as for every directory opened through `opendir`).  A `Handle`
descriptor seeks and reads the real file.  The source `match` has no arms
for the remaining descriptor variants. -/
def readImpl (st : FsState) (realRead : Nat → Nat → Nat → Except Int (List Nat))
    (p : Name) (fh : Nat) (offset size : Nat) : POut (Except Int (List Nat) × FsState) :=
  match lookupD st.fileHandles.openMap fh with
  | none => .ret (.error EBADF, st)
  | some d =>
    let r := d.resolve none
    let st2 : FsState := { st with
      fileHandles := ⟨st.fileHandles.counter,
        st.fileHandles.openMap.map (fun q => if q.1 == fh then (fh, r.state) else q)⟩ }
    match r.err with
    | some _ => .ret (.error EBADF, st2)
    | none =>
      match r.state with
      | .path s =>
        if isUtf8 s then
          match zipByName st.filesCache (zipKeyOf s) with
          | none => .crash "called Result::unwrap on an Err value"
          | some buf => .ret (.ok ((buf.drop offset).take size), st2)
        else .crash "called Option::unwrap on a None value"
      | .handle h =>
        match realRead h offset size with
        | .ok data => .ret (.ok data, st2)
        | .error e => .ret (.error e, st2)
      | _ => .crash "non-exhaustive match on Descriptor in read"

/-- `truncate` without a handle (lines 190-207): a path present in the
archive answers `EACCES`; otherwise `truncate64` on the real path, raw errno
on failure. -/
def truncateNoHandle (st : FsState) (realTruncate : Name → Nat → Except Int Unit)
    (p : Name) (size : Nat) : POut (Except Int Unit × FsState) :=
  if isUtf8 p then
    match zipByName st.filesCache (zipKeyOf p) with
    | some _ => .ret (.error EACCES, st)
    | none =>
      match realTruncate (realPath st.target p) size with
      | .ok _ => .ret (.ok (), st)
      | .error e => .ret (.error e, st)
  else .crash "called Option::unwrap on a None value"

/-- The tree-only projection of a builder fold step: locate the parent and
`add_entry` the new node (the archive appends do not influence the tree). -/
def treeStep (acc : Entry) (item : WalkItem) : Except String Entry :=
  findMutAdd acc item.1 (entryOfNode item.2.1 item.2.2)

/-! # Theorems

All proofs about the embedded definitions follow. -/

theorem nameLt_iff {a b : Name} : nameLt a b = true ↔ cmpName a b = .lt := by
  cases h : cmpName a b <;> simp [nameLt, h]

theorem nameLe_iff {a b : Name} : nameLe a b = true ↔ cmpName a b ≠ .gt := by
  cases h : cmpName a b <;> simp [nameLe, h]

theorem cmpName_eq_iff : ∀ {a b : Name}, cmpName a b = .eq ↔ a = b := by
  intro a
  induction a with
  | nil => intro b; cases b <;> simp [cmpName]
  | cons x xs ih =>
    intro b
    cases b with
    | nil => simp [cmpName]
    | cons y ys =>
      simp only [cmpName]
      rcases h : compare x y with hlt | heq | hgt
      · simp only []
        constructor
        · intro hc; exact absurd hc (by simp)
        · intro hc
          have : x = y := by injection hc
          rw [this] at h
          simp [Nat.compare_eq_lt] at h
      · have hxy : x = y := Nat.compare_eq_eq.mp h
        subst hxy
        constructor
        · intro hc; rw [(ih (b := ys)).mp hc]
        · intro hc
          have : xs = ys := by injection hc
          exact (ih (b := ys)).mpr this
      · constructor
        · intro hc; exact absurd hc (by simp)
        · intro hc
          have : x = y := by injection hc
          rw [this] at h
          simp [Nat.compare_eq_gt] at h

theorem cmpName_self (a : Name) : cmpName a a = .eq := cmpName_eq_iff.mpr rfl

theorem cmpName_swap : ∀ (a b : Name), cmpName a b = (cmpName b a).swap := by
  intro a
  induction a with
  | nil => intro b; cases b <;> simp [cmpName, Ordering.swap]
  | cons x xs ih =>
    intro b
    cases b with
    | nil => simp [cmpName, Ordering.swap]
    | cons y ys =>
      simp only [cmpName]
      rcases h : compare x y with hlt | heq | hgt
      · have : compare y x = .gt := Nat.compare_eq_gt.mpr (Nat.compare_eq_lt.mp h)
        rw [this]; rfl
      · have hxy : x = y := Nat.compare_eq_eq.mp h
        subst hxy
        rw [Nat.compare_eq_eq.mpr rfl]
        exact ih ys
      · have : compare y x = .lt := Nat.compare_eq_lt.mpr (Nat.compare_eq_gt.mp h)
        rw [this]; rfl

theorem cmpName_cons_lt {x y : Nat} (xs ys : List Nat) (h : compare x y = .lt) :
    cmpName (x :: xs) (y :: ys) = .lt := by
  simp [cmpName, h]

theorem cmpName_cons_eq {x y : Nat} (xs ys : List Nat) (h : x = y) :
    cmpName (x :: xs) (y :: ys) = cmpName xs ys := by
  subst h
  simp [cmpName, Nat.compare_eq_eq.mpr rfl]

theorem cmpName_cons_gt {x y : Nat} (xs ys : List Nat) (h : compare x y = .gt) :
    cmpName (x :: xs) (y :: ys) = .gt := by
  simp [cmpName, h]

theorem cmpName_lt_trans : ∀ {a b c : Name},
    cmpName a b = .lt → cmpName b c = .lt → cmpName a c = .lt := by
  intro a
  induction a with
  | nil =>
    intro b c hab hbc
    cases b with
    | nil => simp [cmpName] at hab
    | cons y ys =>
      cases c with
      | nil => simp [cmpName] at hbc
      | cons z zs => simp [cmpName]
  | cons x xs ih =>
    intro b c hab hbc
    cases b with
    | nil => simp [cmpName] at hab
    | cons y ys =>
      cases c with
      | nil => simp [cmpName] at hbc
      | cons z zs =>
        rcases hxy : compare x y with h1 | h1 | h1
        · rcases hyz : compare y z with h2 | h2 | h2
          · exact cmpName_cons_lt xs zs
              (Nat.compare_eq_lt.mpr
                (Nat.lt_trans (Nat.compare_eq_lt.mp hxy) (Nat.compare_eq_lt.mp hyz)))
          · have hyzeq : y = z := Nat.compare_eq_eq.mp hyz
            subst hyzeq
            exact cmpName_cons_lt xs zs hxy
          · rw [cmpName_cons_gt ys zs hyz] at hbc
            exact absurd hbc (by simp)
        · have hxyeq : x = y := Nat.compare_eq_eq.mp hxy
          subst hxyeq
          rw [cmpName_cons_eq xs ys rfl] at hab
          rcases hyz : compare x z with h2 | h2 | h2
          · exact cmpName_cons_lt xs zs hyz
          · have hyzeq : x = z := Nat.compare_eq_eq.mp hyz
            subst hyzeq
            rw [cmpName_cons_eq ys zs rfl] at hbc
            rw [cmpName_cons_eq xs zs rfl]
            exact ih (b := ys) (c := zs) hab hbc
          · rw [cmpName_cons_gt ys zs hyz] at hbc
            exact absurd hbc (by simp)
        · rw [cmpName_cons_gt xs ys hxy] at hab
          exact absurd hab (by simp)

theorem nameLt_trans {a b c : Name}
    (hab : nameLt a b = true) (hbc : nameLt b c = true) : nameLt a c = true :=
  nameLt_iff.mpr (cmpName_lt_trans (nameLt_iff.mp hab) (nameLt_iff.mp hbc))

theorem nameLt_irrefl (a : Name) : nameLt a a = false := by
  simp [nameLt, cmpName_self]

theorem cmpName_gt_iff {a b : Name} : cmpName a b = .gt ↔ cmpName b a = .lt := by
  rw [cmpName_swap a b]
  cases cmpName b a <;> simp [Ordering.swap]

theorem nameLe_total (a b : Name) : nameLe a b = true ∨ nameLe b a = true := by
  rcases h : cmpName a b with h1 | h1 | h1
  · left; simp [nameLe, h]
  · left; simp [nameLe, h]
  · right
    have : cmpName b a = .lt := cmpName_gt_iff.mp h
    simp [nameLe, this]

theorem nameLe_of_lt {a b : Name} (h : nameLt a b = true) : nameLe a b = true := by
  have := nameLt_iff.mp h
  simp [nameLe, this]

theorem nameLt_of_le_of_ne {a b : Name} (h : nameLe a b = true) (hne : a ≠ b) :
    nameLt a b = true := by
  have h' := nameLe_iff.mp h
  rw [nameLt_iff]
  rcases hc : cmpName a b with h1 | h1 | h1
  · rfl
  · exact absurd (cmpName_eq_iff.mp hc) hne
  · exact absurd hc h'

theorem nameLe_trans {a b c : Name} (hab : nameLe a b = true) (hbc : nameLe b c = true) :
    nameLe a c = true := by
  by_cases hab' : a = b
  · subst hab'; exact hbc
  by_cases hbc' : b = c
  · subst hbc'; exact hab
  exact nameLe_of_lt (nameLt_trans (nameLt_of_le_of_ne hab hab') (nameLt_of_le_of_ne hbc hbc'))

theorem nameLt_asymm {a b : Name} (h : nameLt a b = true) : nameLt b a = false := by
  by_contra hba
  simp only [Bool.not_eq_false] at hba
  have := nameLt_trans h hba
  rw [nameLt_irrefl] at this
  exact absurd this (by simp)

theorem nameLt_ne {a b : Name} (h : nameLt a b = true) : a ≠ b := by
  intro he
  subst he
  rw [nameLt_irrefl] at h
  exact absurd h (by simp)

theorem bsearchGo_finds (cs : List Entry) (a : Name) :
    ∀ (fuel lo hi k : Nat), NamesSorted cs → hi ≤ cs.length →
    lo ≤ k → k < hi → hi - lo < fuel → (hk : k < cs.length) → cs[k].name = a →
    bsearchGo cs a fuel lo hi = .ok k := by
  intro fuel
  induction fuel with
  | zero => intro lo hi k _ _ hlok hkhi hfuel _ _; omega
  | succ n ih =>
    intro lo hi k hs hhi hlok hkhi hfuel hk hka
    have hlohi : lo < hi := Nat.lt_of_le_of_lt hlok hkhi
    have hmidlt : (lo + hi) / 2 < hi := by omega
    have hmidlen : (lo + hi) / 2 < cs.length := Nat.lt_of_lt_of_le hmidlt hhi
    have hmidge : lo ≤ (lo + hi) / 2 := by omega
    have hget := List.getD_eq_getElem cs dummyEntry hmidlen
    have hpair := List.pairwise_iff_getElem.mp hs
    rw [bsearchGo, if_pos hlohi, hget]
    rcases hc : cmpName cs[(lo + hi) / 2].name a with h1 | h1 | h1
    · -- element at mid is below a, so k lies to the right of mid
      have hkgt : (lo + hi) / 2 < k := by
        by_contra hle
        push_neg at hle
        rcases Nat.lt_or_eq_of_le hle with hlt | heq
        · have h1 := hpair k ((lo + hi) / 2) hk hmidlen hlt
          rw [hka] at h1
          have h2 : nameLt cs[(lo + hi) / 2].name a = true := nameLt_iff.mpr hc
          have h3 := nameLt_trans h1 h2
          rw [nameLt_irrefl] at h3
          exact absurd h3 (by simp)
        · subst heq
          rw [hka, cmpName_self] at hc
          exact absurd hc (by simp)
      exact ih ((lo + hi) / 2 + 1) hi k hs hhi hkgt hkhi (by omega) hk hka
    · -- equal: mid is the unique index carrying name a
      have hmide : (lo + hi) / 2 = k := by
        have hmida : cs[(lo + hi) / 2].name = a := cmpName_eq_iff.mp hc
        rcases Nat.lt_trichotomy ((lo + hi) / 2) k with hlt | heq | hgt
        · have h4 := hpair ((lo + hi) / 2) k hmidlen hk hlt
          rw [hmida, hka, nameLt_irrefl] at h4
          exact absurd h4 (by simp)
        · exact heq
        · have h4 := hpair k ((lo + hi) / 2) hk hmidlen hgt
          rw [hmida, hka, nameLt_irrefl] at h4
          exact absurd h4 (by simp)
      rw [hmide]
    · -- element at mid is above a, so k lies to the left of mid
      have hklt : k < (lo + hi) / 2 := by
        by_contra hle
        push_neg at hle
        rcases Nat.lt_or_eq_of_le hle with hlt | heq
        · have h1 := hpair ((lo + hi) / 2) k hmidlen hk hlt
          rw [hka] at h1
          have h2 : nameLt a cs[(lo + hi) / 2].name = true :=
            nameLt_iff.mpr (cmpName_gt_iff.mp hc)
          have h3 := nameLt_trans h2 h1
          rw [nameLt_irrefl] at h3
          exact absurd h3 (by simp)
        · subst heq
          rw [hka, cmpName_self] at hc
          exact absurd hc (by simp)
      exact ih lo ((lo + hi) / 2) k hs (Nat.le_of_lt hmidlen) hlok hklt (by omega) hk hka

theorem bsearch_finds {cs : List Entry} {a : Name} {k : Nat}
    (hs : NamesSorted cs) (hk : k < cs.length) (hka : cs[k].name = a) :
    bsearch cs a = .ok k :=
  bsearchGo_finds cs a (cs.length + 1) 0 cs.length k hs (Nat.le_refl _) (Nat.zero_le _) hk
    (by omega) hk hka

theorem chainNames_cons {e : Entry} {rest : List Entry} :
    chainNames (e :: rest) = true ↔
      chainNames rest = true ∧ (∀ f, rest.head? = some f → nameLt e.name f.name = true) := by
  cases rest with
  | nil => simp [chainNames]
  | cons f rs =>
    simp only [chainNames, Bool.and_eq_true, List.head?]
    constructor
    · rintro ⟨h1, h2⟩
      exact ⟨h2, fun g hg => by cases hg; exact h1⟩
    · rintro ⟨h1, h2⟩
      exact ⟨h2 f rfl, h1⟩

theorem pairwise_of_chainNames : ∀ {cs : List Entry}, chainNames cs = true →
    List.Pairwise (fun e f => nameLt e.name f.name = true) cs := by
  intro cs
  induction cs with
  | nil => intro _; exact List.Pairwise.nil
  | cons e rest ih =>
    intro h
    rcases chainNames_cons.mp h with ⟨hrest, hhead⟩
    have hp := ih hrest
    refine List.Pairwise.cons ?_ hp
    intro f hf
    cases rest with
    | nil => cases hf
    | cons g rs =>
      have hg : nameLt e.name g.name = true := hhead g rfl
      rcases List.mem_cons.mp hf with he | he
      · subst he; exact hg
      · have := (List.pairwise_cons.mp hp).1 f he
        exact nameLt_trans hg this

theorem chainNames_of_pairwise : ∀ {cs : List Entry},
    List.Pairwise (fun e f => nameLt e.name f.name = true) cs → chainNames cs = true := by
  intro cs
  induction cs with
  | nil => intro _; rfl
  | cons e rest ih =>
    intro h
    rcases List.pairwise_cons.mp h with ⟨hhead, hrest⟩
    rw [chainNames_cons]
    refine ⟨ih hrest, ?_⟩
    intro f hf
    cases rest with
    | nil => cases hf
    | cons g rs =>
      have hfg : g = f := by simpa using hf
      subst hfg
      exact hhead g (List.mem_cons_self g rs)

theorem namesSorted_of_sortedB {n : Name} {cs : List Entry} {st : SFileAttr}
    (h : Entry.sortedB (.dict n cs st) = true) : NamesSorted cs := by
  rw [Entry.sortedB, Bool.and_eq_true] at h
  exact pairwise_of_chainNames h.1

theorem sortedAll_mem {cs : List Entry} (h : sortedAll cs = true) {e : Entry}
    (he : e ∈ cs) : e.sortedB = true := by
  induction cs with
  | nil => cases he
  | cons f rest ih =>
    rw [sortedAll, Bool.and_eq_true] at h
    rcases List.mem_cons.mp he with h1 | h1
    · subst h1; exact h.1
    · exact ih h.2 h1

theorem resolve_composite_low (pend : Except Int Nat) (p : Name) (buf : List Nat)
    (pos : Nat) {o : Option Nat} (ho : o.getD 0 < 16384) :
    (Descriptor.composite (.lazy pend) p buf pos).resolve o =
      ⟨.composite (.lazy pend) p buf pos, none, false⟩ := by
  simp only [Descriptor.resolve]
  rw [if_neg (by omega)]

theorem resolveSeq_composite_low (pend : Except Int Nat) (p : Name) (buf : List Nat)
    (pos : Nat) (offs : List (Option Nat)) (hoffs : ∀ o ∈ offs, o.getD 0 < 16384) :
    resolveSeq (.composite (.lazy pend) p buf pos) offs =
      (.composite (.lazy pend) p buf pos, false) := by
  induction offs with
  | nil => rfl
  | cons o rest ih =>
    have ho := hoffs o (List.mem_cons_self o rest)
    rw [resolveSeq, resolve_composite_low pend p buf pos ho]
    rw [ih (fun o2 h2 => hoffs o2 (List.mem_cons_of_mem o h2))]
    rfl

/-- C8: for a `Composite` descriptor whose tail is an unresolved `Lazy` open,
every `resolve` with no offset or with an offset strictly below 16 384
returns without receiving on the one-shot channel, reports no error, and
leaves the tail unresolved; hence a sequence of resolves whose offsets never
reach 16 384 never receives (never blocks on the lazy open). -/
theorem claim_c8_composite_low_offsets_never_block
    (pend : Except Int Nat) (p : Name) (buf : List Nat) (pos : Nat)
    (offs : List (Option Nat)) (hoffs : ∀ o ∈ offs, o.getD 0 < 16384) :
    (∀ o : Option Nat, o.getD 0 < 16384 →
      (Descriptor.composite (.lazy pend) p buf pos).resolve o =
        ⟨.composite (.lazy pend) p buf pos, none, false⟩) ∧
    resolveSeq (.composite (.lazy pend) p buf pos) offs =
      (.composite (.lazy pend) p buf pos, false) :=
  ⟨fun _ ho => resolve_composite_low pend p buf pos ho,
    resolveSeq_composite_low pend p buf pos offs hoffs⟩

theorem claim_c8_witness :
    (∀ o ∈ ([none, some 0, some 100, some 16383] : List (Option Nat)), o.getD 0 < 16384) ∧
    resolveSeq (.composite (.lazy (.ok 7)) [97] [1, 2, 3] 0)
        [none, some 0, some 100, some 16383] =
      (.composite (.lazy (.ok 7)) [97] [1, 2, 3] 0, false) :=
  ⟨by decide,
    (claim_c8_composite_low_offsets_never_block (.ok 7) [97] [1, 2, 3] 0
      [none, some 0, some 100, some 16383] (by decide)).2⟩

theorem resolveSeq_error_sticky (e : Int) (offs : List (Option Nat)) :
    (resolveSeq (.error e) offs).1 = .error e := by
  induction offs with
  | nil => rfl
  | cons o rest ih =>
    rw [resolveSeq]
    exact ih

/-- C9: when a `Composite` descriptor's lazy tail open has failed with errno
`e`, the first `resolve` whose offset reaches 16 384 receives the failure and
replaces the entire descriptor (in-memory prefix included) with `Error(e)`,
and every subsequent `resolve`, at any offset -- including offsets below the
prefix length -- fails with errno `e` and stays `Error(e)`. -/
theorem claim_c9_failed_lazy_tail_poisons_descriptor
    (e : Int) (p : Name) (buf : List Nat) (pos : Nat) (o : Nat) (ho : 16384 ≤ o) :
    (Descriptor.composite (.lazy (.error e)) p buf pos).resolve (some o) =
      ⟨.error e, some e, true⟩ ∧
    (∀ o2 : Option Nat, (Descriptor.error e).resolve o2 = ⟨.error e, some e, false⟩) ∧
    (∀ offs : List (Option Nat), (resolveSeq (.error e) offs).1 = .error e) := by
  refine ⟨?_, fun _ => rfl, resolveSeq_error_sticky e⟩
  simp only [Descriptor.resolve]
  rw [if_pos (by simpa using ho)]

theorem claim_c9_witness :
    (16384 ≤ 16384) ∧
    (Descriptor.composite (.lazy (.error 5)) [97] [1, 2] 0).resolve (some 16384) =
      ⟨.error 5, some 5, true⟩ :=
  ⟨Nat.le_refl _,
    (claim_c9_failed_lazy_tail_poisons_descriptor 5 [97] [1, 2] 0 16384 (Nat.le_refl _)).1⟩

/-- C6: the claim "every handle returned is nonzero" fails on the code:
`FH_COUNTER` starts at 0 and `fetch_add` returns the previous value, so the
first registration in a fresh process issues handle 0 -- the very value the
code's own `readdir` (passthrough.rs:641) rejects as "no handle" and the
spec reserves.  (Successive registrations do return distinct live handles:
the second returns 1.) -/
theorem claim_c6_handle_zero_is_issued :
    (registerHandle FileHandles.new (.path [47]) 1 =
      some (0, ⟨1, [(0, .path [47])]⟩)) ∧
    (registerHandle ⟨1, [(0, .path [47])]⟩ (.path [47, 97]) 1 =
      some (1, ⟨2, [(0, .path [47]), (1, .path [47, 97])]⟩)) :=
  ⟨rfl, rfl⟩

/-- C10: `path_to_rel` (and hence `open`, which also re-unwraps `to_str` on
the relative path, and `truncate` without a handle) unwraps
`path.to_str()`; on any virtual path that is not valid UTF-8 the unwrap is
of `None` and the handler panics instead of returning an errno. -/
theorem claim_c10_open_panics_on_non_utf8
    (st : FsState) (realOpen : Name → Nat → Except Int Nat)
    (realTrunc : Name → Nat → Except Int Unit)
    (p : Name) (flags size fuel : Nat) (h : isUtf8 p = false) :
    openImpl st realOpen p flags fuel = .crash "called Option::unwrap on a None value" ∧
    truncateNoHandle st realTrunc p size = .crash "called Option::unwrap on a None value" := by
  constructor
  · unfold openImpl
    rw [if_neg (by simp [h])]
  · unfold truncateNoHandle
    rw [if_neg (by simp [h])]

theorem claim_c10_witness :
    isUtf8 [255] = false ∧
    openImpl ⟨[116], Entry.dict [46] [] statDir0, [], FileHandles.new⟩
        (fun _ _ => .error 2) [255] 0 1 = .crash "called Option::unwrap on a None value" :=
  ⟨rfl,
    (claim_c10_open_panics_on_non_utf8 ⟨[116], Entry.dict [46] [] statDir0, [], FileHandles.new⟩
      (fun _ _ => .error 2) (fun _ _ => .ok ()) [255] 0 0 1 rfl).1⟩

/-- C5: the claim "read on an opendir handle returns EISDIR" fails on the
code: `opendir("/")` registers a `Path` descriptor for the root directory
(the cache tree resolves it), and a subsequent `read` on that handle reaches
`files_cache.by_name(...).unwrap()`; the archive holds no member named by a
directory, so the unwrap panics -- the handler never returns `EISDIR`.
Evaluated at the failing input: a mount whose archive caches `a.txt`,
`opendir("/")` then `read` on the returned handle 0. -/
theorem claim_c5_read_on_directory_handle_panics :
    (opendirImpl
        ⟨[116], Entry.dict [46] [] statDir0, [([97, 46, 116, 120, 116], [120])],
          FileHandles.new⟩ [47] 1 =
      .ret (.ok (0, 0),
        ⟨[116], Entry.dict [46] [] statDir0, [([97, 46, 116, 120, 116], [120])],
          ⟨1, [(0, .path [47])]⟩⟩)) ∧
    (readImpl
        ⟨[116], Entry.dict [46] [] statDir0, [([97, 46, 116, 120, 116], [120])],
          ⟨1, [(0, .path [47])]⟩⟩ (fun _ _ _ => .ok []) [47] 0 0 1024 =
      .crash "called Result::unwrap on an Err value") :=
  ⟨rfl, rfl⟩

theorem findFirstAvailable_spec :
    ∀ (fuel : Nat) (fh : FileHandles) (key : Nat) (fh2 : FileHandles),
    findFirstAvailable fh fuel = some (key, fh2) →
    containsKey fh.openMap key = false ∧ fh2.openMap = fh.openMap := by
  intro fuel
  induction fuel with
  | zero => intro fh key fh2 h; cases h
  | succ n ih =>
    intro fh key fh2 h
    rw [findFirstAvailable] at h
    by_cases hc : containsKey fh.openMap (fh.counter % 2 ^ 64) = true
    · rw [if_pos hc] at h
      exact ih ⟨fh.counter + 1, fh.openMap⟩ key fh2 h
    · rw [if_neg hc] at h
      cases h
      exact ⟨Bool.not_eq_true _ ▸ Bool.of_not_eq_true hc, rfl⟩

theorem lookupD_append_fresh {m : List (Nat × Descriptor)} {k : Nat} (d : Descriptor)
    (h : containsKey m k = false) : lookupD (m ++ [(k, d)]) k = some d := by
  induction m with
  | nil => simp [lookupD]
  | cons q rest ih =>
    rw [containsKey, List.any_cons, Bool.or_eq_false_iff] at h
    rw [List.cons_append, lookupD, if_neg (by simp_all), ih]
    rw [containsKey]
    exact h.2

theorem registerHandle_lookup {fh : FileHandles} {d : Descriptor} {fuel h : Nat}
    {fh2 : FileHandles} (hr : registerHandle fh d fuel = some (h, fh2)) :
    lookupD fh2.openMap h = some d := by
  rw [registerHandle] at hr
  rcases hf : findFirstAvailable fh fuel with _ | ⟨key, fh3⟩ <;> rw [hf] at hr
  · cases hr
  · have hp := Option.some.inj hr
    have hk : key = h := congrArg Prod.fst hp
    have hfh : (⟨fh3.counter, fh3.openMap ++ [(key, d)]⟩ : FileHandles) = fh2 :=
      congrArg Prod.snd hp
    obtain ⟨hfresh, heq⟩ := findFirstAvailable_spec fuel fh key fh3 hf
    rw [← hfh]
    show lookupD (fh3.openMap ++ [(key, d)]) h = some d
    rw [← hk, heq]
    exact lookupD_append_fresh d hfresh

/-- C1, counterexample to the claim as stated: when the archive contains the
member, `open` does not register a `File{path, cursor}` descriptor holding
the member's contents -- it registers `Descriptor::new(path)`, a bare `Path`
descriptor.  Refuted at a mount caching `a.txt` with contents "x", opening
`/a.txt`. -/
theorem claim_c1_counterexample :
    ¬ (∀ (st : FsState) (ro : Name → Nat → Except Int Nat) (p : Name)
        (flags fuel : Nat) (c : List Nat),
        isUtf8 p = true → zipByName st.filesCache (zipKeyOf p) = some c →
        ∃ h st2, openImpl st ro p flags fuel = .ret (.ok (h, flags), st2) ∧
          lookupD st2.fileHandles.openMap h = some (.file p c 0)) := by
  intro hcl
  obtain ⟨h, st2, he, hl⟩ := hcl
    ⟨[116], Entry.dict [46] [] statDir0, [([97, 46, 116, 120, 116], [120])], FileHandles.new⟩
    (fun _ _ => .error 2) [47, 97, 46, 116, 120, 116] 0 1 [120] rfl rfl
  rw [show openImpl
      ⟨[116], Entry.dict [46] [] statDir0, [([97, 46, 116, 120, 116], [120])], FileHandles.new⟩
      (fun _ _ => .error 2) [47, 97, 46, 116, 120, 116] 0 1 =
      .ret (.ok (0, 0),
        ⟨[116], Entry.dict [46] [] statDir0, [([97, 46, 116, 120, 116], [120])],
          ⟨1, [(0, .path [47, 97, 46, 116, 120, 116])]⟩⟩) from rfl] at he
  cases he
  rw [show lookupD [(0, Descriptor.path [47, 97, 46, 116, 120, 116])] 0 =
      some (.path [47, 97, 46, 116, 120, 116]) from rfl] at hl
  simp at hl

/-- C1, amended: on a cache hit `open` succeeds and registers a `Path`
descriptor recording the virtual path (the member's contents are read into
memory by each `read`, not at open time); on a miss it opens `real_path`
through the libc wrapper, registering `Handle(fd)` on success, and on
failure the raw errno of the real open is returned unchanged. -/
theorem claim_c1_open_registers_path_or_real_handle
    (st : FsState) (ro : Name → Nat → Except Int Nat) (p : Name) (flags fuel : Nat)
    (hutf : isUtf8 p = true) :
    (∀ c, zipByName st.filesCache (zipKeyOf p) = some c →
      ∀ h fh2, registerHandle st.fileHandles (.path p) fuel = some (h, fh2) →
        openImpl st ro p flags fuel = .ret (.ok (h, flags), { st with fileHandles := fh2 }) ∧
        lookupD fh2.openMap h = some (.path p)) ∧
    (zipByName st.filesCache (zipKeyOf p) = none →
      (∀ fd, ro (realPath st.target p) flags = .ok fd →
        ∀ h fh2, registerHandle st.fileHandles (.handle fd) fuel = some (h, fh2) →
          openImpl st ro p flags fuel = .ret (.ok (h, flags), { st with fileHandles := fh2 }) ∧
          lookupD fh2.openMap h = some (.handle fd)) ∧
      (∀ e, ro (realPath st.target p) flags = .error e →
        openImpl st ro p flags fuel = .ret (.error e, st))) := by
  refine ⟨?_, fun hmiss => ⟨?_, ?_⟩⟩
  · intro c hc h fh2 hreg
    unfold openImpl
    rw [if_pos hutf, hc, hreg]
    exact ⟨rfl, registerHandle_lookup hreg⟩
  · intro fd hfd h fh2 hreg
    unfold openImpl
    rw [if_pos hutf]
    simp only [hmiss, hfd, hreg]
    exact ⟨trivial, registerHandle_lookup hreg⟩
  · intro e he
    unfold openImpl
    rw [if_pos hutf, hmiss, he]

theorem claim_c1_witness :
    isUtf8 [47, 97, 46, 116, 120, 116] = true ∧
    openImpl
        ⟨[116], Entry.dict [46] [] statDir0, [([97, 46, 116, 120, 116], [120])],
          FileHandles.new⟩
        (fun _ _ => .error 2) [47, 97, 46, 116, 120, 116] 7 1 =
      .ret (.ok (0, 7),
        ⟨[116], Entry.dict [46] [] statDir0, [([97, 46, 116, 120, 116], [120])],
          ⟨1, [(0, .path [47, 97, 46, 116, 120, 116])]⟩⟩) ∧
    lookupD [(0, Descriptor.path [47, 97, 46, 116, 120, 116])] 0 =
      some (.path [47, 97, 46, 116, 120, 116]) := by
  refine ⟨rfl, ?_⟩
  have := (claim_c1_open_registers_path_or_real_handle
      ⟨[116], Entry.dict [46] [] statDir0, [([97, 46, 116, 120, 116], [120])],
        FileHandles.new⟩
      (fun _ _ => .error 2) [47, 97, 46, 116, 120, 116] 7 1 rfl).1
      [120] rfl 0 ⟨1, [(0, .path [47, 97, 46, 116, 120, 116])]⟩ rfl
  exact this

/-- C4, counterexample to the claim as stated: `getattr` without a handle
consults only the cache tree (`stat_real`, despite the name, never touches
the backing store) and fails with `ENOENT` for a path absent from the tree
even when it exists in the backing store.  Refuted with an empty cache tree
and a backing store containing `/a`. -/
theorem claim_c4_counterexample :
    ¬ (∀ (backing : Name → Option SFileAttr) (cache : Entry) (p : Name),
        isUtf8 p = true → backing p ≠ none →
        ∃ a, getattrNoHandle cache p = .ret (.ok a)) := by
  intro hcl
  obtain ⟨a, ha⟩ := hcl (fun q => if q == [47, 97] then some stat0 else none)
    (Entry.dict [46] [] statDir0) [47, 97] rfl (by simp)
  rw [show getattrNoHandle (Entry.dict [46] [] statDir0) [47, 97] =
      .ret (.error ENOENT) from rfl] at ha
  simp [ENOENT] at ha

/-- C4, amended: `getattr` without a handle serves attributes from the cache
tree alone -- it succeeds with the stored stat exactly when the virtual path
resolves in the tree (so entries whose contents are not cached still answer,
as every entry of the source tree is inserted at build time), and answers
`ENOENT` for paths absent from the tree, even ones present in the backing
store. -/
theorem claim_c4_getattr_serves_cache_tree (cache : Entry) (p : Name)
    (hutf : isUtf8 p = true) :
    (∀ e, cache.findE (vcomps p) = .ok e → getattrNoHandle cache p = .ret (.ok e.stat)) ∧
    (∀ msg, cache.findE (vcomps p) = .error msg →
      getattrNoHandle cache p = .ret (.error ENOENT)) := by
  constructor
  · intro e he
    unfold getattrNoHandle statRealP
    rw [if_pos hutf, he]
  · intro msg he
    unfold getattrNoHandle statRealP
    rw [if_pos hutf, he]

theorem claim_c4_witness :
    isUtf8 [47, 110] = true ∧
    (Entry.dict [46] [.file [110] stat0 none] statDir0).findE (vcomps [47, 110]) =
      .ok (.file [110] stat0 none) ∧
    getattrNoHandle (Entry.dict [46] [.file [110] stat0 none] statDir0) [47, 110] =
      .ret (.ok stat0) := by
  refine ⟨rfl, rfl, ?_⟩
  exact (claim_c4_getattr_serves_cache_tree
    (Entry.dict [46] [.file [110] stat0 none] statDir0) [47, 110] rfl).1
    (.file [110] stat0 none) rfl

theorem audioLoopF_at_cap (fuel : Nat) (file : List Nat) :
    audioLoopF fuel file 16384 = [] := by
  cases fuel with
  | zero => rfl
  | succ n => rw [audioLoopF, if_neg (by omega)]

theorem audioLoopF_eq : ∀ (fuel : Nat) (file : List Nat) (counter : Nat),
    counter ≤ 16384 → file.length ≤ 128 * fuel →
    audioLoopF fuel file counter = file.take (16384 - counter) := by
  intro fuel
  induction fuel with
  | zero =>
    intro file counter _ h2
    have hf : file = [] := List.length_eq_zero.mp (by omega)
    subst hf
    simp [audioLoopF]
  | succ n ih =>
    intro file counter h1 h2
    rw [audioLoopF]
    by_cases h0 : counter < 16384
    · rw [if_pos h0]
      by_cases hch : (file.take 128).length = 0
      · rw [if_pos hch]
        rw [List.length_take] at hch
        have hf : file = [] := List.length_eq_zero.mp (by omega)
        subst hf
        simp
      · rw [if_neg hch]
        rw [List.length_take] at hch
        by_cases hover : counter + (file.take 128).length > 16384
        · simp only [if_pos hover]
          rw [show counter + (16384 - counter) = 16384 from by omega]
          rw [audioLoopF_at_cap, List.append_nil, List.take_take]
          rw [List.length_take] at hover
          congr 1
          omega
        · simp only [if_neg hover]
          rw [List.take_length]
          rw [List.length_take] at hover
          rw [ih (file.drop 128) (counter + (file.take 128).length)
            (by rw [List.length_take]; omega)
            (by rw [List.length_drop]; omega)]
          rw [List.length_take]
          by_cases hbig : 128 ≤ file.length
          · have hmin : min 128 file.length = 128 := by omega
            rw [hmin]
            rw [show 16384 - counter = 128 + (16384 - (counter + 128)) from by omega]
            rw [List.take_add]
          · have hmin : min 128 file.length = file.length := by omega
            rw [hmin]
            rw [List.take_of_length_le (le_of_lt (by omega : file.length < 128))]
            rw [List.drop_eq_nil_of_le (by omega : file.length ≤ 128)]
            rw [List.take_nil, List.append_nil]
            rw [List.take_of_length_le (by omega : file.length ≤ 16384 - counter)]
    · rw [if_neg h0]
      rw [show 16384 - counter = 0 from by omega]
      simp

theorem audioLoop_take (c : List Nat) : audioLoop c 0 = c.take 16384 := by
  unfold audioLoop
  rw [audioLoopF_eq (c.length + 1) c 0 (by omega) (by omega)]

theorem splitExtAux_recombine : ∀ {l s e : List Nat},
    splitExtAux l = some (s, e) → l = s ++ 46 :: e := by
  intro l
  induction l with
  | nil => intro s e h; cases h
  | cons c rest ih =>
    intro s e h
    rw [splitExtAux] at h
    rcases hsp : splitExtAux rest with _ | ⟨s2, e2⟩ <;> rw [hsp] at h
    · by_cases hc : (c == 46) = true
      · rw [if_pos hc] at h
        cases h
        have hc46 : c = 46 := by simpa using hc
        subst hc46
        rfl
      · rw [if_neg hc] at h
        cases h
    · cases h
      rw [ih hsp]
      rfl

theorem extSplit_recombine : ∀ {n s e : Name},
    extSplit n = some (s, e) → n = s ++ 46 :: e := by
  intro n s e h
  cases n with
  | nil => cases h
  | cons c rest =>
    rw [extSplit] at h
    rcases hsp : splitExtAux rest with _ | ⟨s2, e2⟩ <;> rw [hsp] at h
    · cases h
    · cases h
      rw [splitExtAux_recombine hsp]
      rfl

theorem audioPartName_eq {n : Name} (h : isAudioName n = true) :
    audioPartName n = n ++ [46, 112, 97, 114, 116] := by
  rcases hx : extSplit n with _ | ⟨s, e⟩
  · rw [isAudioName, extOf, hx] at h
    simp at h
  · unfold audioPartName withExt
    rw [hx, extSplit_recombine hx]
    simp

theorem zipPathOf_append_last (base : List Name) (m s : Name) :
    zipPathOf (base ++ [m ++ s]) = zipPathOf (base ++ [m]) ++ s := by
  cases base with
  | nil => simp [zipPathOf]
  | cons c rest =>
    simp [zipPathOf, List.foldl_append]

theorem buildStep_mem {ca : Bool} {acc acc2 : Entry × List (Name × List Nat)}
    {item : WalkItem} (h : buildStep ca acc item = .ok acc2)
    {x : Name × List Nat} (hx : x ∈ acc.2) : x ∈ acc2.2 := by
  rcases item with ⟨base, n, node⟩
  unfold buildStep at h
  rcases hf : findMutAdd acc.1 base (entryOfNode n node) with e | t <;>
    simp only [hf] at h
  · cases h
  · cases node with
    | dir st cs =>
      cases h
      exact hx
    | file st c =>
      cases h
      apply List.mem_append_left
      by_cases ht : hasTxtExt n = true
      · rw [if_pos ht]
        exact List.mem_append_left _ hx
      · rw [if_neg ht]
        exact hx

theorem foldlM_buildStep_mem {ca : Bool} :
    ∀ (items : List WalkItem) (acc res : Entry × List (Name × List Nat)),
    items.foldlM (buildStep ca) acc = .ok res → ∀ x ∈ acc.2, x ∈ res.2 := by
  intro items
  induction items with
  | nil =>
    intro acc res h x hx
    cases h
    exact hx
  | cons i rest ih =>
    intro acc res h x hx
    rw [List.foldlM_cons] at h
    rcases hs : buildStep ca acc i with e | acc2 <;> rw [hs] at h
    · cases h
    · exact ih acc2 res h x (buildStep_mem hs hx)

theorem buildStep_audio {acc acc2 : Entry × List (Name × List Nat)}
    {base : List Name} {n : Name} {fst : SFileAttr} {c : List Nat}
    (h : buildStep true acc (base, n, .file fst c) = .ok acc2)
    (haudio : isAudioName n = true) :
    (zipPathOf (base ++ [audioPartName n]), audioLoop c 0) ∈ acc2.2 := by
  unfold buildStep at h
  rcases hf : findMutAdd acc.1 base (entryOfNode n (.file fst c)) with e | t <;>
    simp only [hf] at h
  · cases h
  · cases h
    apply List.mem_append_right
    rw [if_pos (by simp [haudio])]
    exact List.mem_singleton.mpr rfl

theorem fold_audio_member :
    ∀ (items : List WalkItem) (acc res : Entry × List (Name × List Nat)),
    items.foldlM (buildStep true) acc = .ok res →
    ∀ (base : List Name) (n : Name) (fst : SFileAttr) (c : List Nat),
    (base, n, SrcNode.file fst c) ∈ items → isAudioName n = true →
    (zipPathOf (base ++ [audioPartName n]), audioLoop c 0) ∈ res.2 := by
  intro items
  induction items with
  | nil =>
    intro acc res _ base n fst c hmem _
    cases hmem
  | cons i rest ih =>
    intro acc res h base n fst c hmem haudio
    rw [List.foldlM_cons] at h
    rcases hs : buildStep true acc i with e | acc2 <;> rw [hs] at h
    · cases h
    · rcases List.mem_cons.mp hmem with hh | hh
      · subst hh
        exact foldlM_buildStep_mem rest acc2 res h _ (buildStep_audio hs haudio)
      · exact ih acc2 res h base n fst c hh haudio

/-- C3: for every file of the source tree whose extension is one of
{mp3, m4a, ogg, wav, wma, flac}, a build with audio caching enabled gives
the archive a member named by the file's source-relative path with an
additional `.part` suffix appended after the original extension, whose
contents are exactly the first `min(16384, size)` bytes of the file; in
particular a 100 000-byte file yields exactly its leading 16 384 bytes. -/
theorem claim_c3_audio_prefix_member
    (rootStat : SFileAttr) (cs : List (Name × SrcNode)) (base : List Name) (n : Name)
    (fst : SFileAttr) (c : List Nat) (t : Entry) (ms : List (Name × List Nat))
    (hmem : (base, n, SrcNode.file fst c) ∈ walkTop cs)
    (haudio : isAudioName n = true)
    (hb : buildFull (.dir rootStat cs) true = .ok (t, ms)) :
    (zipPathOf (base ++ [n]) ++ [46, 112, 97, 114, 116], c.take 16384) ∈ ms ∧
    (c.length = 100000 → (c.take 16384).length = 16384) := by
  constructor
  · unfold buildFull at hb
    have h := fold_audio_member (walkTop cs) (Entry.dict [46] [] rootStat, []) (t, ms)
      hb base n fst c hmem haudio
    rw [audioLoop_take, audioPartName_eq haudio, zipPathOf_append_last] at h
    exact h
  · intro hlen
    rw [List.length_take]
    omega

theorem claim_c3_witness :
    isAudioName [115, 46, 109, 112, 51] = true ∧
    buildFull (.dir statDir0 [([115, 46, 109, 112, 51], .file stat0 [1, 2, 3])]) true =
      .ok (Entry.dict [46] [.file [115, 46, 109, 112, 51] stat0 none] statDir0,
        [([115, 46, 109, 112, 51, 46, 112, 97, 114, 116], [1, 2, 3])]) ∧
    (zipPathOf ([] ++ [[115, 46, 109, 112, 51]]) ++ [46, 112, 97, 114, 116],
        ([1, 2, 3] : List Nat).take 16384) ∈
      ([([115, 46, 109, 112, 51, 46, 112, 97, 114, 116], [1, 2, 3])] :
        List (Name × List Nat)) := by
  refine ⟨rfl, rfl, ?_⟩
  refine (claim_c3_audio_prefix_member statDir0
    [([115, 46, 109, 112, 51], .file stat0 [1, 2, 3])] [] [115, 46, 109, 112, 51]
    stat0 [1, 2, 3] (Entry.dict [46] [.file [115, 46, 109, 112, 51] stat0 none] statDir0)
    [([115, 46, 109, 112, 51, 46, 112, 97, 114, 116], [1, 2, 3])] ?_ rfl rfl).1
  rw [show walkTop [([115, 46, 109, 112, 51], SrcNode.file stat0 [1, 2, 3])] =
    [([], [115, 46, 109, 112, 51], SrcNode.file stat0 [1, 2, 3])] from rfl]
  exact List.mem_singleton.mpr rfl

theorem natOf_ofNat (k : Nat) : natOf (.num (k : Int)) = some k := by
  simp [natOf]

theorem deTs_serTs (t : STimespec) : deTs (serTs t) = some t := rfl

theorem deKind_serKind (k : SFileType) : deKind (serKind k) = some k := by
  cases k <;> rfl

set_option maxHeartbeats 1000000 in
theorem deAttr_serAttr (a : SFileAttr) : deAttr (serAttr a) = some a := by
  simp [serAttr, deAttr, jField, natOf_ofNat, deTs_serTs, deKind_serKind]

theorem deName_serName (n : Name) : deName (serName n) = some n := by
  rw [serName, deName]
  induction n with
  | nil => rfl
  | cons b rest ih =>
    rw [List.map_cons, List.mapM_cons,
      show byteOf (.num (Int.ofNat b)) = some b from natOf_ofNat b, ih]
    rfl

mutual

theorem deser_ser_entry : ∀ (e : Entry), e.noContents = true →
    deserializeEntry (serializeEntry e) = some e
  | .dict n cs st, h => by
    have hlist := deser_ser_list cs (by rw [Entry.noContents] at h; exact h)
    rw [serializeEntry, deserializeEntry, deName_serName, deAttr_serAttr, hlist]
  | .file n st c, h => by
    have hc : c = none := by
      rw [Entry.noContents, Option.isNone_iff_eq_none] at h
      exact h
    subst hc
    rw [serializeEntry, deserializeEntry, deName_serName, deAttr_serAttr]

theorem deser_ser_list : ∀ (cs : List Entry), noContentsAll cs = true →
    deserializeListE (serializeListE cs) = some cs
  | [], _ => rfl
  | e :: rest, h => by
    rw [noContentsAll, Bool.and_eq_true] at h
    rw [serializeListE, deserializeListE, deser_ser_entry e h.1, deser_ser_list rest h.2]

end

theorem noContentsAll_iff {cs : List Entry} :
    noContentsAll cs = true ↔ ∀ e ∈ cs, e.noContents = true := by
  induction cs with
  | nil => simp [noContentsAll]
  | cons e rest ih =>
    rw [noContentsAll, Bool.and_eq_true, ih]
    constructor
    · rintro ⟨h1, h2⟩ f hf
      rcases List.mem_cons.mp hf with hx | hx
      · subst hx; exact h1
      · exact h2 f hx
    · intro hall
      exact ⟨hall e (List.mem_cons_self e rest), fun f hf => hall f (List.mem_cons_of_mem e hf)⟩

theorem entryOfNode_noContents (n : Name) (node : SrcNode) :
    (entryOfNode n node).noContents = true := by
  cases node with
  | dir st cs => rfl
  | file st c =>
    rw [entryOfNode, Entry.noContents]
    rfl

theorem findMutAdd_noContents :
    ∀ (p : List Name) (t x t2 : Entry), findMutAdd t p x = .ok t2 →
    t.noContents = true → x.noContents = true → t2.noContents = true := by
  intro p
  induction p with
  | nil =>
    intro t x t2 h ht hx
    cases t with
    | file _ _ _ => cases h
    | dict n cs st =>
      cases h
      rw [Entry.noContents] at ht ⊢
      rw [noContentsAll_iff] at ht ⊢
      intro e he
      rcases List.mem_append.mp he with hm | hm
      · exact ht e hm
      · rw [List.mem_singleton.mp hm]
        exact hx
  | cons comp rest ih =>
    intro t x t2 h ht hx
    cases t with
    | file _ _ _ => cases h
    | dict n cs st =>
      rw [findMutAdd] at h
      rcases hb : bsearch cs comp with e | i <;> simp only [hb] at h
      · cases h
      · rcases hrec : findMutAdd (cs.getD i dummyEntry) rest x with e2 | c2 <;>
          simp only [hrec] at h
        · cases h
        · cases h
          rw [Entry.noContents, noContentsAll_iff] at ht ⊢
          have hgetd : (cs.getD i dummyEntry).noContents = true := by
            by_cases hi : i < cs.length
            · rw [List.getD_eq_getElem cs dummyEntry hi]
              exact ht _ (List.getElem_mem hi)
            · rw [List.getD_eq_default cs dummyEntry (by omega)]
              rfl
          have hc2 := ih (cs.getD i dummyEntry) x c2 hrec hgetd hx
          intro e he
          rcases List.mem_or_eq_of_mem_set he with hm | hm
          · exact ht e hm
          · rw [hm]
            exact hc2

theorem fold_treeStep_noContents :
    ∀ (items : List WalkItem) (acc res : Entry),
    items.foldlM treeStep acc = .ok res → acc.noContents = true → res.noContents = true := by
  intro items
  induction items with
  | nil =>
    intro acc res h ha
    cases h
    exact ha
  | cons i rest ih =>
    intro acc res h ha
    rw [List.foldlM_cons] at h
    rcases hs : treeStep acc i with e | acc2 <;> rw [hs] at h
    · cases h
    · refine ih acc2 res h ?_
      exact findMutAdd_noContents i.1 acc (entryOfNode i.2.1 i.2.2) acc2 hs ha
        (entryOfNode_noContents i.2.1 i.2.2)

theorem buildFull_fst {ca : Bool} :
    ∀ (items : List WalkItem) (acc : Entry × List (Name × List Nat)),
    (items.foldlM (buildStep ca) acc).map Prod.fst = items.foldlM treeStep acc.1 := by
  intro items
  induction items with
  | nil => intro acc; rfl
  | cons i rest ih =>
    intro acc
    rw [List.foldlM_cons, List.foldlM_cons]
    rcases i with ⟨base, n, node⟩
    show ((buildStep ca acc (base, n, node)).bind _).map Prod.fst =
      (treeStep acc.1 (base, n, node)).bind _
    rw [buildStep, treeStep]
    rcases hf : findMutAdd acc.1 base (entryOfNode n node) with e | t
    · rfl
    · cases node with
      | dir st cs => exact ih (t, acc.2)
      | file st c => exact ih (t, _)

theorem buildTree_fold (st : SFileAttr) (cs : List (Name × SrcNode)) (ca : Bool) :
    buildTree (.dir st cs) ca =
      (walkTop cs).foldlM treeStep (Entry.dict [46] [] st) := by
  rw [buildTree, buildFull]
  exact buildFull_fst (walkTop cs) (Entry.dict [46] [] st, [])

theorem buildTree_noContents (src : SrcNode) (ca : Bool) (t : Entry)
    (hb : buildTree src ca = .ok t) : t.noContents = true := by
  cases src with
  | file st c => cases hb
  | dir st cs =>
    rw [buildTree_fold] at hb
    exact fold_treeStep_noContents (walkTop cs) (Entry.dict [46] [] st) t hb rfl

/-- C7: every cache tree the builder can produce serializes to a
`files.json` value whose deserialization is the identical tree -- same
structure, same names, stat records equal bit-for-bit (the builder leaves
every `File`'s in-memory contents `None`, exactly what the
`#[serde(skip)]`/`default` round-trip restores). -/
theorem claim_c7_serialize_roundtrip (src : SrcNode) (ca : Bool) (t : Entry)
    (hb : buildTree src ca = .ok t) :
    deserializeEntry (serializeEntry t) = some t :=
  deser_ser_entry t (buildTree_noContents src ca t hb)

theorem claim_c7_witness :
    buildTree (.dir statDir0 [([97], .file stat0 [120])]) false =
      .ok (Entry.dict [46] [.file [97] stat0 none] statDir0) ∧
    deserializeEntry (serializeEntry (Entry.dict [46] [.file [97] stat0 none] statDir0)) =
      some (Entry.dict [46] [.file [97] stat0 none] statDir0) :=
  ⟨rfl, claim_c7_serialize_roundtrip (.dir statDir0 [([97], .file stat0 [120])]) false
    (Entry.dict [46] [.file [97] stat0 none] statDir0) rfl⟩

theorem insertPair_perm (p : Name × SrcNode) :
    ∀ l : List (Name × SrcNode), (insertPair p l).Perm (p :: l) := by
  intro l
  induction l with
  | nil => exact List.Perm.refl _
  | cons q rest ih =>
    rw [insertPair]
    by_cases hle : nameLe q.1 p.1 = true
    · rw [if_pos hle]
      exact (ih.cons q).trans (List.Perm.swap p q rest)
    · rw [if_neg hle]

theorem sortPairs_perm : ∀ l : List (Name × SrcNode), (sortPairs l).Perm l := by
  intro l
  induction l with
  | nil => exact List.Perm.refl _
  | cons p rest ih =>
    exact (insertPair_perm p (sortPairs rest)).trans (ih.cons p)

theorem mem_sortPairs {p : Name × SrcNode} {cs : List (Name × SrcNode)} :
    p ∈ sortPairs cs ↔ p ∈ cs :=
  (sortPairs_perm cs).mem_iff

theorem insertPair_pairwise {p : Name × SrcNode} :
    ∀ {l : List (Name × SrcNode)},
    List.Pairwise (fun a b => nameLe a.1 b.1 = true) l →
    List.Pairwise (fun a b => nameLe a.1 b.1 = true) (insertPair p l) := by
  intro l
  induction l with
  | nil => intro _; exact List.pairwise_cons.mpr ⟨fun x hx => absurd hx (by simp), .nil⟩
  | cons q rest ih =>
    intro h
    rcases List.pairwise_cons.mp h with ⟨hq, hrest⟩
    rw [insertPair]
    by_cases hle : nameLe q.1 p.1 = true
    · rw [if_pos hle]
      refine List.pairwise_cons.mpr ⟨?_, ih hrest⟩
      intro x hx
      have hx2 : x ∈ p :: rest := (insertPair_perm p rest).mem_iff.mp hx
      rcases List.mem_cons.mp hx2 with hx3 | hx3
      · subst hx3; exact hle
      · exact hq x hx3
    · rw [if_neg hle]
      have hpq : nameLe p.1 q.1 = true := by
        rcases nameLe_total q.1 p.1 with h1 | h1
        · exact absurd h1 hle
        · exact h1
      refine List.pairwise_cons.mpr ⟨?_, h⟩
      intro x hx
      rcases List.mem_cons.mp hx with hx3 | hx3
      · subst hx3; exact hpq
      · exact nameLe_trans hpq (hq x hx3)

theorem sortPairs_pairwise_le (cs : List (Name × SrcNode)) :
    List.Pairwise (fun a b => nameLe a.1 b.1 = true) (sortPairs cs) := by
  induction cs with
  | nil => exact .nil
  | cons p rest ih => exact insertPair_pairwise ih

theorem namesNodup_pairwise : ∀ {l : List Name}, namesNodup l = true →
    List.Pairwise (fun a b : Name => a ≠ b) l := by
  intro l
  induction l with
  | nil => intro _; exact .nil
  | cons n rest ih =>
    intro h
    rw [namesNodup, Bool.and_eq_true] at h
    refine List.pairwise_cons.mpr ⟨?_, ih h.2⟩
    intro m hm
    have := List.all_eq_true.mp h.1 m hm
    simpa using this

theorem sortPairs_pairwise_lt (cs : List (Name × SrcNode))
    (hnodup : namesNodup (cs.map Prod.fst) = true) :
    List.Pairwise (fun a b => nameLt a.1 b.1 = true) (sortPairs cs) := by
  have hle := sortPairs_pairwise_le cs
  have hne1 : List.Pairwise (fun p q : Name × SrcNode => p.1 ≠ q.1) cs :=
    List.pairwise_map.mp (namesNodup_pairwise hnodup)
  have hne2 : List.Pairwise (fun p q : Name × SrcNode => p.1 ≠ q.1) (sortPairs cs) :=
    ((sortPairs_perm cs).pairwise_iff (fun h => h.symm)).mpr hne1
  exact (hle.and hne2).imp (fun h => nameLt_of_le_of_ne h.1 h.2)

theorem w_pos : ∀ node : SrcNode, 1 ≤ SrcNode.w node := by
  intro node
  cases node with
  | file st c => exact Nat.le_refl 1
  | dir st cs => rw [SrcNode.w]; omega

theorem pairsW_perm : ∀ {l l' : List (Name × SrcNode)}, l.Perm l' → pairsW l = pairsW l' := by
  intro l l' h
  induction h with
  | nil => rfl
  | cons x _ ih => rw [pairsW, pairsW, ih]
  | swap x y l => rw [pairsW, pairsW, pairsW, pairsW]; omega
  | trans _ _ ih1 ih2 => rw [ih1, ih2]

theorem pairsW_sortPairs (cs : List (Name × SrcNode)) : pairsW (sortPairs cs) = pairsW cs :=
  pairsW_perm (sortPairs_perm cs)

theorem w_lt_of_mem : ∀ {l : List (Name × SrcNode)} {p : Name × SrcNode},
    p ∈ l → SrcNode.w p.2 < pairsW l := by
  intro l
  induction l with
  | nil => intro p h; cases h
  | cons q rest ih =>
    intro p h
    rw [pairsW]
    rcases List.mem_cons.mp h with h1 | h1
    · subst h1; omega
    · have := ih h1; omega

theorem wfAllB_forall : ∀ {l : List (Name × SrcNode)},
    wfAllB l = true ↔ ∀ q ∈ l, SrcNode.wfB q.2 = true := by
  intro l
  induction l with
  | nil => simp [wfAllB]
  | cons q rest ih =>
    rw [wfAllB, Bool.and_eq_true, ih]
    constructor
    · rintro ⟨h1, h2⟩ x hx
      rcases List.mem_cons.mp hx with h3 | h3
      · subst h3; exact h1
      · exact h2 x h3
    · intro h
      exact ⟨h q (List.mem_cons_self q rest),
        fun x hx => h x (List.mem_cons_of_mem q hx)⟩

theorem walkF_irrel : ∀ (f1 f2 : Nat) (q : Name × SrcNode) (base : List Name),
    SrcNode.w q.2 ≤ f1 → SrcNode.w q.2 ≤ f2 →
    walkNodeItemsF f1 q base = walkNodeItemsF f2 q base := by
  intro f1
  induction f1 with
  | zero =>
    intro f2 q base h1 _
    have := w_pos q.2
    omega
  | succ m ih =>
    intro f2 q base h1 h2
    rcases q with ⟨n, node⟩
    cases node with
    | file st c =>
      cases f2 with
      | zero =>
        have hp := w_pos (SrcNode.file st c)
        have h2x : SrcNode.w (SrcNode.file st c) ≤ 0 := h2
        omega
      | succ m2 => rfl
    | dir st cs =>
      cases f2 with
      | zero =>
        have hp := w_pos (SrcNode.dir st cs)
        have h2x : SrcNode.w (SrcNode.dir st cs) ≤ 0 := h2
        omega
      | succ m2 =>
        simp only [walkNodeItemsF]
        congr 1
        apply List.flatMap_congr
        intro x hx
        have hw := w_lt_of_mem (mem_sortPairs.mp hx)
        rw [SrcNode.w] at h1 h2
        exact ih m2 x (base ++ [n]) (by omega) (by omega)

theorem walkNodeItems_file (n : Name) (st : SFileAttr) (c : List Nat) (base : List Name) :
    walkNodeItems (n, .file st c) base = [(base, n, .file st c)] := rfl

theorem walkNodeItems_dir (n : Name) (st : SFileAttr) (cs : List (Name × SrcNode))
    (base : List Name) :
    walkNodeItems (n, .dir st cs) base =
      (base, n, .dir st cs) ::
        (sortPairs cs).flatMap (fun q => walkNodeItems q (base ++ [n])) := by
  show walkNodeItemsF (SrcNode.w (.dir st cs)) (n, .dir st cs) base = _
  rw [show SrcNode.w (.dir st cs) = pairsW cs + 1 from by rw [SrcNode.w]; omega]
  simp only [walkNodeItemsF]
  congr 1
  apply List.flatMap_congr
  intro x hx
  have hw := w_lt_of_mem (mem_sortPairs.mp hx)
  exact walkF_irrel (pairsW cs) (SrcNode.w x.2) x (base ++ [n]) (by omega) (Nat.le_refl _)

theorem mirrorF_irrel : ∀ (f1 f2 : Nat) (q : Name × SrcNode),
    SrcNode.w q.2 ≤ f1 → SrcNode.w q.2 ≤ f2 → mirrorPairF f1 q = mirrorPairF f2 q := by
  intro f1
  induction f1 with
  | zero =>
    intro f2 q h1 _
    have := w_pos q.2
    omega
  | succ m ih =>
    intro f2 q h1 h2
    rcases q with ⟨n, node⟩
    cases node with
    | file st c =>
      cases f2 with
      | zero =>
        have hp := w_pos (SrcNode.file st c)
        have h2x : SrcNode.w (SrcNode.file st c) ≤ 0 := h2
        omega
      | succ m2 => rfl
    | dir st cs =>
      cases f2 with
      | zero =>
        have hp := w_pos (SrcNode.dir st cs)
        have h2x : SrcNode.w (SrcNode.dir st cs) ≤ 0 := h2
        omega
      | succ m2 =>
        simp only [mirrorPairF]
        congr 1
        apply List.map_congr_left
        intro x hx
        have hw := w_lt_of_mem (mem_sortPairs.mp hx)
        rw [SrcNode.w] at h1 h2
        exact ih m2 x (by omega) (by omega)

theorem mirrorPair_file (n : Name) (st : SFileAttr) (c : List Nat) :
    mirrorPair (n, .file st c) = entryOfNode n (.file st c) := rfl

theorem mirrorPair_dir (n : Name) (st : SFileAttr) (cs : List (Name × SrcNode)) :
    mirrorPair (n, .dir st cs) = .dict n ((sortPairs cs).map mirrorPair) st := by
  show mirrorPairF (SrcNode.w (.dir st cs)) (n, .dir st cs) = _
  rw [show SrcNode.w (.dir st cs) = pairsW cs + 1 from by rw [SrcNode.w]; omega]
  simp only [mirrorPairF]
  congr 1
  apply List.map_congr_left
  intro x hx
  have hw := w_lt_of_mem (mem_sortPairs.mp hx)
  exact mirrorF_irrel (pairsW cs) (SrcNode.w x.2) x (by omega) (Nat.le_refl _)

theorem mirrorPair_name (q : Name × SrcNode) : (mirrorPair q).name = q.1 := by
  rcases q with ⟨n, node⟩
  cases node with
  | file st c =>
    rw [mirrorPair_file]
    cases hx : hasTxtExt n <;> simp [entryOfNode, Entry.name, hx]
  | dir st cs =>
    rw [mirrorPair_dir]
    rfl

theorem entryOfNode_name (n : Name) (node : SrcNode) : (entryOfNode n node).name = n := by
  cases node with
  | dir st cs => rfl
  | file st c => cases hx : hasTxtExt n <;> simp [entryOfNode, Entry.name, hx]

theorem walkF_shift : ∀ (fuel : Nat) (q : Name × SrcNode) (b base : List Name),
    walkNodeItemsF fuel q (b ++ base) =
      (walkNodeItemsF fuel q base).map (fun it => (b ++ it.1, it.2)) := by
  intro fuel
  induction fuel with
  | zero => intro q b base; rfl
  | succ m ih =>
    intro q b base
    rcases q with ⟨n, node⟩
    cases node with
    | file st c => rfl
    | dir st cs =>
      simp only [walkNodeItemsF, List.map_cons]
      congr 1
      rw [List.map_flatMap]
      apply List.flatMap_congr
      intro x _
      rw [show (b ++ base) ++ [n] = b ++ (base ++ [n]) from by simp]
      exact ih x b (base ++ [n])

theorem walkNodeItems_shift (q : Name × SrcNode) (b : List Name) :
    walkNodeItems q b = (walkNodeItems q []).map (fun it => (b ++ it.1, it.2)) := by
  have h := walkF_shift (SrcNode.w q.2) q b []
  rw [List.append_nil] at h
  exact h

theorem findMutAdd_name : ∀ (p : List Name) (t x t2 : Entry),
    findMutAdd t p x = .ok t2 → t2.name = t.name := by
  intro p
  cases p with
  | nil =>
    intro t x t2 h
    cases t with
    | file _ _ _ => cases h
    | dict n cs st => cases h; rfl
  | cons comp rest =>
    intro t x t2 h
    cases t with
    | file _ _ _ => cases h
    | dict n cs st =>
      rw [findMutAdd] at h
      rcases hb : bsearch cs comp with e | i <;> simp only [hb] at h
      · cases h
      · rcases hrec : findMutAdd (cs.getD i dummyEntry) rest x with e2 | c2 <;>
          simp only [hrec] at h
        · cases h
        · cases h; rfl

theorem findMutAdd_cons_dict {cs : List Entry} {k : Nat} {comp : Name}
    (nm : Name) (st : SFileAttr) (rest : List Name) (x : Entry)
    (hs : NamesSorted cs) (hk : k < cs.length) (hkn : cs[k].name = comp) :
    findMutAdd (.dict nm cs st) (comp :: rest) x =
      match findMutAdd cs[k] rest x with
      | .error e => .error e
      | .ok c => .ok (.dict nm (cs.set k c) st) := by
  rw [findMutAdd, bsearch_finds hs hk hkn]
  show (match findMutAdd (cs.getD k dummyEntry) rest x with
    | Except.error msg => Except.error msg
    | Except.ok c => Except.ok (Entry.dict nm (cs.set k c) st)) =
    match findMutAdd cs[k] rest x with
    | Except.error e => Except.error e
    | Except.ok c => Except.ok (Entry.dict nm (cs.set k c) st)
  rw [List.getD_eq_getElem cs dummyEntry hk]

theorem set_append_len : ∀ (done : List Entry) (x c : Entry),
    (done ++ [x]).set done.length c = done ++ [c] := by
  intro done
  induction done with
  | nil => intro x c; rfl
  | cons e rest ih =>
    intro x c
    rw [List.cons_append, List.length_cons, List.set_cons_succ, ih]
    rfl

theorem getElem_append_len (done : List Entry) (x : Entry)
    (h : done.length < (done ++ [x]).length) : (done ++ [x])[done.length] = x := by
  rw [List.getElem_append_right (Nat.le_refl done.length)]
  simp

theorem namesSorted_set_same {cs : List Entry} {k : Nat} {c : Entry}
    (hs : NamesSorted cs) (hk : k < cs.length) (hn : c.name = cs[k].name) :
    NamesSorted (cs.set k c) := by
  rw [NamesSorted, List.pairwise_iff_getElem] at hs ⊢
  intro i j hi hj hij
  rw [List.length_set] at hi hj
  rw [List.getElem_set, List.getElem_set]
  by_cases hik : k = i
  · subst hik
    rw [if_pos rfl, if_neg (by omega), hn]
    exact hs k j hi hj hij
  · rw [if_neg hik]
    by_cases hjk : k = j
    · subst hjk
      rw [if_pos rfl, hn]
      exact hs i k hi hj hij
    · rw [if_neg hjk]
      exact hs i j hi hj hij

theorem set_getElem_self {cs : List Entry} {k : Nat} (hk : k < cs.length) :
    cs.set k cs[k] = cs := by
  apply List.ext_getElem
  · simp
  · intro i h1 h2
    rw [List.getElem_set]
    split
    · subst_eqs; rfl
    · rfl

theorem foldlM_treeStep_cons_ok {t c1 : Entry} {it : WalkItem} {rest : List WalkItem}
    (h : treeStep t it = .ok c1) :
    (it :: rest).foldlM treeStep t = rest.foldlM treeStep c1 := by
  rw [List.foldlM_cons, h]
  rfl

theorem foldlM_treeStep_cons_err {t : Entry} {e : String} {it : WalkItem}
    {rest : List WalkItem} (h : treeStep t it = .error e) :
    (it :: rest).foldlM treeStep t = .error e := by
  rw [List.foldlM_cons, h]
  rfl

theorem foldl_treeStep_lift :
    ∀ (items : List WalkItem) (nm : Name) (cs : List Entry) (st : SFileAttr) (k : Nat)
      (n : Name), NamesSorted cs → (hk : k < cs.length) → cs[k].name = n →
    (items.map (fun it => (n :: it.1, it.2))).foldlM treeStep (.dict nm cs st) =
      match items.foldlM treeStep cs[k] with
      | .error e => .error e
      | .ok c => .ok (.dict nm (cs.set k c) st) := by
  intro items
  induction items with
  | nil =>
    intro nm cs st k n hs hk hn
    rw [List.map_nil, List.foldlM_nil, List.foldlM_nil]
    show Except.ok _ = Except.ok _
    rw [set_getElem_self hk]
  | cons it rest ih =>
    intro nm cs st k n hs hk hn
    rw [List.map_cons]
    rcases hstep : findMutAdd cs[k] it.1 (entryOfNode it.2.1 it.2.2) with e | c1
    · have hL : treeStep (.dict nm cs st) (n :: it.1, it.2) = .error e := by
        show findMutAdd (.dict nm cs st) (n :: it.1) (entryOfNode it.2.1 it.2.2) = .error e
        rw [findMutAdd_cons_dict nm st it.1 (entryOfNode it.2.1 it.2.2) hs hk hn, hstep]
      have hR : treeStep cs[k] it = .error e := hstep
      rw [foldlM_treeStep_cons_err hL, foldlM_treeStep_cons_err hR]
    · have hL : treeStep (.dict nm cs st) (n :: it.1, it.2) =
          .ok (.dict nm (cs.set k c1) st) := by
        show findMutAdd (.dict nm cs st) (n :: it.1) (entryOfNode it.2.1 it.2.2) =
          Except.ok (Entry.dict nm (cs.set k c1) st)
        rw [findMutAdd_cons_dict nm st it.1 (entryOfNode it.2.1 it.2.2) hs hk hn, hstep]
      have hR : treeStep cs[k] it = .ok c1 := hstep
      rw [foldlM_treeStep_cons_ok hL, foldlM_treeStep_cons_ok hR]
      have hc1name : c1.name = n := by
        rw [findMutAdd_name it.1 cs[k] (entryOfNode it.2.1 it.2.2) c1 hstep, hn]
      have hs2 : NamesSorted (cs.set k c1) :=
        namesSorted_set_same hs hk (by rw [hc1name, hn])
      have hk2 : k < (cs.set k c1).length := by rw [List.length_set]; exact hk
      have hn2 : (cs.set k c1)[k].name = n := by
        rw [List.getElem_set, if_pos rfl, hc1name]
      have hih := ih nm (cs.set k c1) st k n hs2 hk2 hn2
      rw [hih]
      rw [show (cs.set k c1)[k] = c1 from by rw [List.getElem_set, if_pos rfl]]
      rcases hrest : rest.foldlM treeStep c1 with e2 | c2
      · rfl
      · show Except.ok (Entry.dict nm ((cs.set k c1).set k c2) st) =
          Except.ok (Entry.dict nm (cs.set k c2) st)
        rw [List.set_set]

theorem foldlM_treeStep_append_ok {l1 l2 : List WalkItem} {t t1 : Entry}
    (h : l1.foldlM treeStep t = .ok t1) :
    (l1 ++ l2).foldlM treeStep t = l2.foldlM treeStep t1 := by
  rw [List.foldlM_append, h]
  rfl

theorem done_extend {done : List Entry} {X : Entry} {n : Name}
    {rest : List (Name × SrcNode)} {node : SrcNode}
    (hX : X.name = n)
    (hpw : List.Pairwise (fun a b => nameLt a.1 b.1 = true) ((n, node) :: rest))
    (hdone : ∀ e ∈ done, ∀ q ∈ (n, node) :: rest, nameLt e.name q.1 = true)
    (hds : NamesSorted done) :
    (∀ e ∈ done ++ [X], ∀ q ∈ rest, nameLt e.name q.1 = true) ∧
    NamesSorted (done ++ [X]) := by
  have hhead := (List.pairwise_cons.mp hpw).1
  constructor
  · intro e he q hq
    rcases List.mem_append.mp he with h1 | h1
    · exact hdone e h1 q (List.mem_cons_of_mem _ hq)
    · rw [List.mem_singleton.mp h1, hX]
      exact hhead q hq
  · rw [NamesSorted, List.pairwise_append]
    refine ⟨hds, List.pairwise_singleton _ _, ?_⟩
    intro a ha b hb
    rw [List.mem_singleton.mp hb, hX]
    exact hdone a ha (n, node) (List.mem_cons_self _ _)

theorem foldWalk_main :
    ∀ (fuelW : Nat) (scs : List (Name × SrcNode)) (nm : Name) (done : List Entry)
      (st : SFileAttr),
    pairsW scs ≤ fuelW →
    List.Pairwise (fun a b => nameLt a.1 b.1 = true) scs →
    (∀ q ∈ scs, SrcNode.wfB q.2 = true) →
    (∀ e ∈ done, ∀ q ∈ scs, nameLt e.name q.1 = true) →
    NamesSorted done →
    (scs.flatMap (fun q => walkNodeItems q [])).foldlM treeStep (.dict nm done st) =
      .ok (.dict nm (done ++ scs.map mirrorPair) st) := by
  intro fuelW
  induction fuelW with
  | zero =>
    intro scs nm done st hfuel hpw hwf hdone hds
    cases scs with
    | nil =>
      rw [List.flatMap_nil, List.foldlM_nil, List.map_nil, List.append_nil]
      rfl
    | cons q rest =>
      have hfuel2 : 1 + SrcNode.w q.2 + pairsW rest ≤ 0 := hfuel
      omega
  | succ m ih =>
    intro scs nm done st hfuel hpw hwf hdone hds
    cases scs with
    | nil =>
      rw [List.flatMap_nil, List.foldlM_nil, List.map_nil, List.append_nil]
      rfl
    | cons q rest =>
      rcases q with ⟨n, node⟩
      have hfuel2 : 1 + SrcNode.w node + pairsW rest ≤ m + 1 := hfuel
      rw [List.flatMap_cons]
      cases node with
      | file fst c =>
        rw [walkNodeItems_file, List.singleton_append]
        have hstep : treeStep (.dict nm done st) ([], n, .file fst c) =
            .ok (.dict nm (done ++ [entryOfNode n (.file fst c)]) st) := rfl
        rw [foldlM_treeStep_cons_ok hstep]
        obtain ⟨hd2, hs2⟩ := done_extend (entryOfNode_name n (.file fst c)) hpw hdone hds
        rw [ih rest nm (done ++ [entryOfNode n (.file fst c)]) st (by omega)
          (List.pairwise_cons.mp hpw).2
          (fun p hp => hwf p (List.mem_cons_of_mem _ hp)) hd2 hs2]
        rw [List.map_cons, mirrorPair_file, List.append_assoc]
        rfl
      | dir std cs2 =>
        have hwfn : SrcNode.wfB (.dir std cs2) = true :=
          hwf (n, .dir std cs2) (List.mem_cons_self _ _)
        rw [SrcNode.wfB, Bool.and_eq_true] at hwfn
        rw [walkNodeItems_dir, List.cons_append]
        have hstep : treeStep (.dict nm done st) ([], n, .dir std cs2) =
            .ok (.dict nm (done ++ [Entry.dict n [] std]) st) := rfl
        rw [foldlM_treeStep_cons_ok hstep]
        obtain ⟨hd2, hs2⟩ := done_extend (show (Entry.dict n [] std).name = n from rfl)
          hpw hdone hds
        have hk1 : done.length < (done ++ [Entry.dict n [] std]).length := by simp
        have hn1 : (done ++ [Entry.dict n [] std])[done.length].name = n := by
          rw [getElem_append_len]
          rfl
        have hinner : (sortPairs cs2).flatMap (fun q => walkNodeItems q ([] ++ [n])) =
            ((sortPairs cs2).flatMap (fun q => walkNodeItems q [])).map
              (fun it => (n :: it.1, it.2)) := by
          rw [List.map_flatMap]
          apply List.flatMap_congr
          intro x _
          rw [show ([] : List Name) ++ [n] = [n] from rfl, walkNodeItems_shift x [n]]
          rfl
        have hinner2 : ((sortPairs cs2).flatMap (fun q => walkNodeItems q [])).foldlM
            treeStep (Entry.dict n [] std) =
            .ok (.dict n ([] ++ (sortPairs cs2).map mirrorPair) std) := by
          apply ih (sortPairs cs2) n [] std
          · rw [pairsW_sortPairs]
            have hw : SrcNode.w (.dir std cs2) = 1 + pairsW cs2 := rfl
            omega
          · exact sortPairs_pairwise_lt cs2 hwfn.1
          · intro p hp
            exact wfAllB_forall.mp hwfn.2 p (mem_sortPairs.mp hp)
          · intro e he
            cases he
          · exact List.Pairwise.nil
        have hseg : ((sortPairs cs2).flatMap (fun q => walkNodeItems q ([] ++ [n]))).foldlM
            treeStep (Entry.dict nm (done ++ [Entry.dict n [] std]) st) =
            .ok (.dict nm (done ++ [mirrorPair (n, .dir std cs2)]) st) := by
          rw [hinner]
          rw [foldl_treeStep_lift _ nm _ st done.length n hs2 hk1 hn1]
          rw [show (done ++ [Entry.dict n [] std])[done.length] = Entry.dict n [] std from
            getElem_append_len done _ hk1]
          rw [hinner2]
          show Except.ok (Entry.dict nm ((done ++ [Entry.dict n [] std]).set done.length
            (Entry.dict n ([] ++ (sortPairs cs2).map mirrorPair) std)) st) = _
          rw [set_append_len, mirrorPair_dir, List.nil_append]
        rw [foldlM_treeStep_append_ok hseg]
        obtain ⟨hd3, hs3⟩ := done_extend (mirrorPair_name (n, .dir std cs2)) hpw hdone hds
        rw [ih rest nm (done ++ [mirrorPair (n, .dir std cs2)]) st
          (by have hw : SrcNode.w (.dir std cs2) = 1 + pairsW cs2 := rfl; omega)
          (List.pairwise_cons.mp hpw).2
          (fun p hp => hwf p (List.mem_cons_of_mem _ hp)) hd3 hs3]
        rw [List.map_cons, List.append_assoc]
        rfl

theorem sortedAll_iff {cs : List Entry} :
    sortedAll cs = true ↔ ∀ e ∈ cs, e.sortedB = true := by
  induction cs with
  | nil => simp [sortedAll]
  | cons e rest ih =>
    rw [sortedAll, Bool.and_eq_true, ih]
    constructor
    · rintro ⟨h1, h2⟩ f hf
      rcases List.mem_cons.mp hf with h3 | h3
      · subst h3; exact h1
      · exact h2 f h3
    · intro h
      exact ⟨h e (List.mem_cons_self e rest),
        fun f hf => h f (List.mem_cons_of_mem e hf)⟩

theorem mirror_children_chain (cs : List (Name × SrcNode))
    (hnodup : namesNodup (cs.map Prod.fst) = true) :
    chainNames ((sortPairs cs).map mirrorPair) = true := by
  apply chainNames_of_pairwise
  rw [List.pairwise_map]
  exact (sortPairs_pairwise_lt cs hnodup).imp
    (fun {a b} h => by rw [mirrorPair_name, mirrorPair_name]; exact h)

theorem mirrorPair_sortedB : ∀ (fuelW : Nat) (q : Name × SrcNode),
    SrcNode.w q.2 ≤ fuelW → SrcNode.wfB q.2 = true → (mirrorPair q).sortedB = true := by
  intro fuelW
  induction fuelW with
  | zero =>
    intro q h _
    have := w_pos q.2
    omega
  | succ m ih =>
    intro q h hwf
    rcases q with ⟨n, node⟩
    cases node with
    | file st c =>
      rw [mirrorPair_file]
      cases hx : hasTxtExt n <;> simp [entryOfNode, Entry.sortedB, hx]
    | dir st cs =>
      have hwfn : SrcNode.wfB (.dir st cs) = true := hwf
      rw [SrcNode.wfB, Bool.and_eq_true] at hwfn
      rw [mirrorPair_dir, Entry.sortedB, Bool.and_eq_true]
      refine ⟨mirror_children_chain cs hwfn.1, sortedAll_iff.mpr ?_⟩
      intro e he
      rcases List.mem_map.mp he with ⟨x, hx, hxe⟩
      subst hxe
      have hw := w_lt_of_mem (mem_sortPairs.mp hx)
      have hwX : SrcNode.wfB x.2 = true := wfAllB_forall.mp hwfn.2 x (mem_sortPairs.mp hx)
      have h2 : SrcNode.w (SrcNode.dir st cs) ≤ m + 1 := h
      have hd : SrcNode.w (SrcNode.dir st cs) = 1 + pairsW cs := rfl
      exact ih x (by omega) hwX

/-- C2: after the builder completes on a well-formed source tree (no
directory lists the same name twice), every directory node of the produced
cache tree has its children strictly ascending by byte-wise name, at every
level -- the invariant the binary-search lookup of `find` relies on.  The
proof computes the whole `find_mut`/`add_entry` fold of the sorted walk: it
produces exactly the name-sorted mirror of the source tree. -/
theorem claim_c2_builder_children_sorted (src : SrcNode) (ca : Bool) (t : Entry)
    (hwf : src.wfB = true) (hb : buildTree src ca = .ok t) : t.sortedB = true := by
  cases src with
  | file st c =>
    rw [buildTree, buildFull] at hb
    cases hb
  | dir st cs =>
    rw [buildTree_fold] at hb
    rw [SrcNode.wfB, Bool.and_eq_true] at hwf
    have hmain := foldWalk_main (pairsW (sortPairs cs)) (sortPairs cs) [46] [] st
      (Nat.le_refl _) (sortPairs_pairwise_lt cs hwf.1)
      (fun q hq => wfAllB_forall.mp hwf.2 q (mem_sortPairs.mp hq))
      (fun e he => absurd he (List.not_mem_nil e))
      List.Pairwise.nil
    rw [show walkTop cs = (sortPairs cs).flatMap (fun q => walkNodeItems q []) from rfl,
      hmain] at hb
    cases hb
    rw [List.nil_append, Entry.sortedB, Bool.and_eq_true]
    refine ⟨mirror_children_chain cs hwf.1, sortedAll_iff.mpr ?_⟩
    intro e he
    rcases List.mem_map.mp he with ⟨x, hx, hxe⟩
    subst hxe
    exact mirrorPair_sortedB (SrcNode.w x.2) x (Nat.le_refl _)
      (wfAllB_forall.mp hwf.2 x (mem_sortPairs.mp hx))

theorem claim_c2_witness :
    SrcNode.wfB
        (.dir statDir0 [([98], .file stat0 [1]),
          ([97], .dir statDir0 [([99], .file stat0 [2])])]) = true ∧
    buildTree
        (.dir statDir0 [([98], .file stat0 [1]),
          ([97], .dir statDir0 [([99], .file stat0 [2])])]) false =
      .ok (Entry.dict [46]
        [Entry.dict [97] [Entry.file [99] stat0 none] statDir0,
          Entry.file [98] stat0 none] statDir0) ∧
    Entry.sortedB (Entry.dict [46]
      [Entry.dict [97] [Entry.file [99] stat0 none] statDir0,
        Entry.file [98] stat0 none] statDir0) = true := by
  refine ⟨rfl, rfl, ?_⟩
  exact claim_c2_builder_children_sorted
    (.dir statDir0 [([98], .file stat0 [1]),
      ([97], .dir statDir0 [([99], .file stat0 [2])])]) false
    (Entry.dict [46]
      [Entry.dict [97] [Entry.file [99] stat0 none] statDir0,
        Entry.file [98] stat0 none] statDir0) rfl rfl
